import Mathlib

/-!
# Verification of the Huffman_tool repository

A shallow embedding of `huffman_tool.py`, `huffman_reader.py` and
`chunk_compressor.py` (Python) in Lean 4, with theorems settling the frozen
claims about the streaming Huffman compressor, its tokenizer, the chunked
container, the per-chunk decoder and the lazy paginator.

Python strings are modelled as `List Char`, bit strings ("0"/"1" characters)
as `List Bool` (`false` = "0"), bytes as `Nat` values below 256, and Python
dictionaries as insertion-ordered association lists.  Code paths that raise
exceptions (AttributeError, KeyError) are modelled with `Option`/sum types.
-/

set_option maxHeartbeats 1600000

namespace HuffmanTool

/-- A token (Python string): one character in char mode, a word-mode token
otherwise. -/
abbrev Symbol := List Char

/-- The two tokenization modes accepted by the tool. -/
inductive Mode
  | char
  | word
deriving DecidableEq

/-! ## Bit/byte conversions

`compress_file_streaming_hybrid` writes a byte with
`int(byte_bits, 2).to_bytes(1, "big")`; `unpack_bits` renders a byte with
`f"{byte:08b}"`.  Both are MSB-first. -/

/-- Python `int(bits, 2)` on an MSB-first bit string. -/
def bitsToNat (bs : List Bool) : Nat :=
  bs.foldl (fun a b => 2 * a + (if b then 1 else 0)) 0

/-- Python `f"{byte:08b}"`: the 8 bits of a byte value, MSB first. -/
def natToBits8 (n : Nat) : List Bool :=
  [n.testBit 7, n.testBit 6, n.testBit 5, n.testBit 4,
   n.testBit 3, n.testBit 2, n.testBit 1, n.testBit 0]

/-! ## Tokenizer

`TOKEN_PATTERN = [A-Za-z_]+|[0-9]|[^\w\s]|\s` with `re.UNICODE`. -/

/-- ASCII letter: the `A-Za-z` part of the first alternative. -/
def isAsciiLetter (c : Char) : Bool :=
  (65 ≤ c.toNat && c.toNat ≤ 90) || (97 ≤ c.toNat && c.toNat ≤ 122)

/-- A character of the class `[A-Za-z_]` (first alternative of TOKEN_PATTERN);
`_` is U+005F. -/
def isWordRunChar (c : Char) : Bool :=
  isAsciiLetter c || c.toNat = 95

/-- The class `[0-9]` (second alternative). -/
def isAsciiDigit (c : Char) : Bool :=
  48 ≤ c.toNat && c.toNat ≤ 57

/-- Python's Unicode `str.isalpha`, restricted to the Basic Latin and Latin-1
Supplement blocks (the source relies on Python's full Unicode tables; no
character above U+00FF occurs in any statement below).  Latin-1 letters are
U+00AA, U+00B5, U+00BA, U+00C0..U+00FF except the two operators × (U+00D7)
and ÷ (U+00F7). -/
def pyIsAlpha (c : Char) : Bool :=
  isAsciiLetter c ||
  c.toNat = 0xAA || c.toNat = 0xB5 || c.toNat = 0xBA ||
  (0xC0 ≤ c.toNat && c.toNat ≤ 0xFF && !(c.toNat = 0xD7) && !(c.toNat = 0xF7))

/-- Python regex `\w` under `re.UNICODE`: alphanumerics plus underscore, with
the same Latin-1 restriction as `pyIsAlpha` (the Latin-1 numerics are
¹²³ and ¼½¾). -/
def pyIsWordChar (c : Char) : Bool :=
  pyIsAlpha c || isAsciiDigit c || c.toNat = 95 ||
  c.toNat = 0xB9 || (0xB2 ≤ c.toNat && c.toNat ≤ 0xB3) ||
  (0xBC ≤ c.toNat && c.toNat ≤ 0xBE)

/-- Python regex `\s` under `re.UNICODE`, restricted to Latin-1: space,
TAB..CR, FS..US, NEL (U+0085) and NBSP (U+00A0). -/
def pyIsSpace (c : Char) : Bool :=
  c.toNat = 32 || (9 ≤ c.toNat && c.toNat ≤ 13) ||
  (28 ≤ c.toNat && c.toNat ≤ 31) || c.toNat = 0x85 || c.toNat = 0xA0

/-- The structural-recursion engine behind `findallTokens`; `fuel` bounds the
scan steps (the text length always suffices, see `findallGo_congr`). -/
def findallGo : Nat → List Char → List Symbol
  | 0, _ => []
  | _, [] => []
  | fuel + 1, c :: cs =>
    if isWordRunChar c then
      (c :: cs.takeWhile isWordRunChar) ::
        findallGo fuel (cs.dropWhile isWordRunChar)
    else if isAsciiDigit c then
      [c] :: findallGo fuel cs
    else if !pyIsWordChar c && !pyIsSpace c then
      [c] :: findallGo fuel cs
    else if pyIsSpace c then
      [c] :: findallGo fuel cs
    else
      findallGo fuel cs

/-- `TOKEN_PATTERN.findall(text)`: the regex engine scans left to right and at
each position tries the four alternatives in order — a maximal (greedy)
`[A-Za-z_]+` run, a single digit, a single character that is neither a word
character nor whitespace, a single whitespace character.  A character matching
no alternative is skipped. -/
def findallTokens (text : List Char) : List Symbol :=
  findallGo text.length text

/-- `findallGo` ignores the fuel once it covers the text length. -/
theorem findallGo_congr : ∀ (f1 : Nat) (text : List Char) (f2 : Nat),
    text.length ≤ f1 → text.length ≤ f2 →
    findallGo f1 text = findallGo f2 text := by
  intro f1
  induction f1 with
  | zero =>
    intro text f2 h1 _
    have : text = [] := List.length_eq_zero.1 (Nat.le_zero.1 h1)
    subst this
    cases f2 <;> rfl
  | succ n ih =>
    intro text f2 h1 h2
    cases text with
    | nil => cases f2 <;> rfl
    | cons c cs =>
      cases f2 with
      | zero => simp at h2
      | succ m =>
        simp only [List.length_cons, Nat.succ_le_succ_iff] at h1 h2
        simp only [findallGo]
        have hd : (cs.dropWhile isWordRunChar).length ≤ cs.length :=
          (List.dropWhile_suffix isWordRunChar).length_le
        split_ifs <;>
          first
            | rw [ih (cs.dropWhile isWordRunChar) m (le_trans hd h1)
                (le_trans hd h2)]
            | rw [ih cs m h1 h2]

/-- The defining equation of `findallTokens` on a non-empty text. -/
theorem findallTokens_cons (c : Char) (cs : List Char) :
    findallTokens (c :: cs) =
      if isWordRunChar c then
        (c :: cs.takeWhile isWordRunChar) ::
          findallTokens (cs.dropWhile isWordRunChar)
      else if isAsciiDigit c then
        [c] :: findallTokens cs
      else if !pyIsWordChar c && !pyIsSpace c then
        [c] :: findallTokens cs
      else if pyIsSpace c then
        [c] :: findallTokens cs
      else
        findallTokens cs := by
  show findallGo (cs.length + 1) (c :: cs) = _
  simp only [findallGo]
  have hd : (cs.dropWhile isWordRunChar).length ≤ cs.length :=
    (List.dropWhile_suffix isWordRunChar).length_le
  split_ifs
  all_goals
    first
      | rw [findallGo_congr cs.length (cs.dropWhile isWordRunChar)
          (cs.dropWhile isWordRunChar).length hd le_rfl]
      | rw [findallGo_congr cs.length cs cs.length le_rfl le_rfl]
  all_goals rfl

/-- `tokenize_text(text, mode)`: `TOKEN_PATTERN.findall(text)` in word mode,
`list(text)` otherwise. -/
def tokenize_text (text : List Char) (mode : Mode) : List Symbol :=
  match mode with
  | .word => findallTokens text
  | .char => text.map (fun c => [c])

/-- Fuel-bounded engine behind `readChunks`. -/
def readChunksGo (n : Nat) : Nat → List Char → List (List Char)
  | 0, _ => []
  | _, [] => []
  | fuel + 1, c :: cs =>
    if n = 0 then []
    else (c :: cs).take n :: readChunksGo n fuel ((c :: cs).drop n)

/-- The successive results of `f.read(chunk_size)`: pieces of `chunk_size`
characters (reading 0 characters returns an empty string, which breaks the
loop at once). -/
def readChunks (n : Nat) (text : List Char) : List (List Char) :=
  readChunksGo n text.length text

/-- `readChunksGo` ignores the fuel once it covers the text length. -/
theorem readChunksGo_congr (n : Nat) : ∀ (f1 : Nat) (text : List Char)
    (f2 : Nat), text.length ≤ f1 → text.length ≤ f2 →
    readChunksGo n f1 text = readChunksGo n f2 text := by
  intro f1
  induction f1 with
  | zero =>
    intro text f2 h1 _
    have : text = [] := List.length_eq_zero.1 (Nat.le_zero.1 h1)
    subst this
    cases f2 <;> rfl
  | succ k ih =>
    intro text f2 h1 h2
    cases text with
    | nil => cases f2 <;> rfl
    | cons c cs =>
      cases f2 with
      | zero => simp at h2
      | succ m =>
        simp only [List.length_cons, Nat.succ_le_succ_iff] at h1 h2
        simp only [readChunksGo]
        split_ifs with hn
        · rfl
        · rw [ih ((c :: cs).drop n) m (by simp [List.length_drop]; omega)
            (by simp [List.length_drop]; omega)]

/-- The defining equation of `readChunks` on a non-empty text. -/
theorem readChunks_cons (n : Nat) (c : Char) (cs : List Char) :
    readChunks n (c :: cs) =
      if n = 0 then []
      else (c :: cs).take n :: readChunks n ((c :: cs).drop n) := by
  show readChunksGo n (cs.length + 1) (c :: cs) = _
  simp only [readChunksGo]
  split_ifs with hn
  · rfl
  · rw [readChunksGo_congr n cs.length ((c :: cs).drop n)
      ((c :: cs).drop n).length (by simp [List.length_drop]; omega) le_rfl]
    rfl

/-- The word-mode loop of `stream_tokens_from_file`: per read chunk, extend the
carried buffer, run `findall`, and withhold the trailing token when the buffer
ends in an alphabetic character (`buffer[-1].isalpha()`); at EOF, tokenize the
remaining buffer. -/
def streamWordLoop : List Char → List (List Char) → List Symbol
  | buffer, [] => findallTokens buffer
  | buffer, ch :: rest =>
    let buf := buffer ++ ch
    let toks := findallTokens buf
    if !buf.isEmpty && pyIsAlpha (buf.getLastD ' ') then
      match toks.getLast? with
      | none => streamWordLoop buf rest
      | some lastTok => toks.dropLast ++ streamWordLoop lastTok rest
    else
      toks ++ streamWordLoop [] rest

/-- `stream_tokens_from_file` on a text already in memory: char mode yields
each character of each read chunk; word mode runs the buffered loop. -/
def stream_tokens_from_file (text : List Char) (mode : Mode) (chunk_size : Nat) :
    List Symbol :=
  match mode with
  | .char => (readChunks chunk_size text).flatten.map (fun c => [c])
  | .word => streamWordLoop [] (readChunks chunk_size text)

/-- Fuel-bounded engine behind `pySplit`. -/
def pySplitGo : Nat → List Char → List (List Char)
  | 0, _ => []
  | _, [] => []
  | fuel + 1, c :: cs =>
    if pyIsSpace c then pySplitGo fuel cs
    else (c :: cs.takeWhile (fun d => !pyIsSpace d)) ::
      pySplitGo fuel (cs.dropWhile (fun d => !pyIsSpace d))

/-- Python `str.split()` with no separator: maximal runs of non-whitespace
characters, outer whitespace discarded. -/
def pySplit (s : List Char) : List (List Char) :=
  pySplitGo s.length s

/-- `pySplitGo` ignores the fuel once it covers the text length. -/
theorem pySplitGo_congr : ∀ (f1 : Nat) (s : List Char) (f2 : Nat),
    s.length ≤ f1 → s.length ≤ f2 → pySplitGo f1 s = pySplitGo f2 s := by
  intro f1
  induction f1 with
  | zero =>
    intro s f2 h1 _
    have : s = [] := List.length_eq_zero.1 (Nat.le_zero.1 h1)
    subst this
    cases f2 <;> rfl
  | succ k ih =>
    intro s f2 h1 h2
    cases s with
    | nil => cases f2 <;> rfl
    | cons c cs =>
      cases f2 with
      | zero => simp at h2
      | succ m =>
        simp only [List.length_cons, Nat.succ_le_succ_iff] at h1 h2
        simp only [pySplitGo]
        have hd : (cs.dropWhile (fun d => !pyIsSpace d)).length ≤ cs.length :=
          (List.dropWhile_suffix _).length_le
        split_ifs
        · exact ih cs m h1 h2
        · rw [ih (cs.dropWhile (fun d => !pyIsSpace d)) m
            (le_trans hd h1) (le_trans hd h2)]

/-- The defining equation of `pySplit` on a non-empty text. -/
theorem pySplit_cons (c : Char) (cs : List Char) :
    pySplit (c :: cs) =
      if pyIsSpace c then pySplit cs
      else (c :: cs.takeWhile (fun d => !pyIsSpace d)) ::
        pySplit (cs.dropWhile (fun d => !pyIsSpace d)) := by
  show pySplitGo (cs.length + 1) (c :: cs) = _
  simp only [pySplitGo]
  have hd : (cs.dropWhile (fun d => !pyIsSpace d)).length ≤ cs.length :=
    (List.dropWhile_suffix _).length_le
  split_ifs
  · exact pySplitGo_congr cs.length cs cs.length le_rfl le_rfl
  · rw [pySplitGo_congr cs.length (cs.dropWhile (fun d => !pyIsSpace d))
      (cs.dropWhile (fun d => !pyIsSpace d)).length hd le_rfl]
    rfl

/-! ## Frequency table

`build_frequency_table_streaming`: a Python dict updated with
`freq[token] = freq.get(token, 0) + 1`, modelled as an insertion-ordered
association list. -/

/-- One dict update `freq[s] = freq.get(s, 0) + 1`: bump in place if present,
append `(s, 1)` otherwise. -/
def freqBump : List (Symbol × Nat) → Symbol → List (Symbol × Nat)
  | [], s => [(s, 1)]
  | (t, n) :: rest, s =>
    if t = s then (t, n + 1) :: rest else (t, n) :: freqBump rest s

/-- `build_frequency_table_streaming` applied to an already-streamed token
list: the frequency table and the total count. -/
def build_frequency_table_streaming (tokens : List Symbol) :
    List (Symbol × Nat) × Nat :=
  (tokens.foldl freqBump [], tokens.length)

/-! ## Huffman tree: `Node` and CPython's `heapq` -/

/-- The source's `Node`: `build_huffman_tree` creates exactly two shapes —
leaves `Node(char=c, freq=f)` (children `None`) and internal nodes
`Node(freq=l.freq+r.freq, left=l, right=r)` (char `None`). -/
inductive Node
  | leaf (char : Symbol) (freq : Nat)
  | internal (freq : Nat) (left : Node) (right : Node)
deriving DecidableEq

instance : Inhabited Node := ⟨.leaf [] 0⟩

/-- The `freq` field. -/
def Node.freq : Node → Nat
  | .leaf _ f => f
  | .internal f _ _ => f

/-- `Node.__lt__`: comparison by frequency only. -/
def Node.lt (a b : Node) : Bool :=
  a.freq < b.freq

/-- The `char` field (`None` on internal nodes). -/
def Node.char? : Node → Option Symbol
  | .leaf c _ => some c
  | .internal _ _ _ => none

/-- The `left` field (`None` on leaves). -/
def Node.left? : Node → Option Node
  | .leaf _ _ => none
  | .internal _ l _ => some l

/-- The `right` field (`None` on leaves). -/
def Node.right? : Node → Option Node
  | .leaf _ _ => none
  | .internal _ _ r => some r

/-- Fuel-bounded engine behind `siftdownAux` (the parent position strictly
decreases, so `pos` steps of fuel always suffice). -/
def siftdownGo (startpos : Nat) (newitem : Node) :
    Nat → List Node → Nat → List Node
  | 0, heap, pos => heap.set pos newitem
  | fuel + 1, heap, pos =>
    if startpos < pos then
      if Node.lt newitem (heap.getD ((pos - 1) / 2) default) then
        siftdownGo startpos newitem fuel
          (heap.set pos (heap.getD ((pos - 1) / 2) default)) ((pos - 1) / 2)
      else
        heap.set pos newitem
    else
      heap.set pos newitem

/-- CPython `heapq._siftdown(heap, startpos, pos)`; `newitem = heap[pos]` is
read once at entry and passed explicitly here. -/
def siftdownAux (heap : List Node) (startpos pos : Nat) (newitem : Node) :
    List Node :=
  siftdownGo startpos newitem pos heap pos

/-- `siftdownGo` ignores the fuel once it covers `pos`. -/
theorem siftdownGo_congr (startpos : Nat) (newitem : Node) :
    ∀ (f1 : Nat) (heap : List Node) (pos : Nat) (f2 : Nat),
    pos ≤ f1 → pos ≤ f2 →
    siftdownGo startpos newitem f1 heap pos =
      siftdownGo startpos newitem f2 heap pos := by
  intro f1
  induction f1 with
  | zero =>
    intro heap pos f2 h1 _
    have : pos = 0 := Nat.le_zero.1 h1
    subst this
    cases f2 with
    | zero => rfl
    | succ m => simp [siftdownGo]
  | succ k ih =>
    intro heap pos f2 h1 h2
    cases f2 with
    | zero =>
      have : pos = 0 := Nat.le_zero.1 h2
      subst this
      simp [siftdownGo]
    | succ m =>
      simp only [siftdownGo]
      split_ifs with h3 h4
      · exact ih _ _ m (by omega) (by omega)
      · rfl
      · rfl

/-- The defining equation of `siftdownAux`. -/
theorem siftdownAux_eq (heap : List Node) (startpos pos : Nat)
    (newitem : Node) :
    siftdownAux heap startpos pos newitem =
      if startpos < pos then
        if Node.lt newitem (heap.getD ((pos - 1) / 2) default) then
          siftdownAux (heap.set pos (heap.getD ((pos - 1) / 2) default))
            startpos ((pos - 1) / 2) newitem
        else
          heap.set pos newitem
      else
        heap.set pos newitem := by
  show siftdownGo startpos newitem pos heap pos = _
  cases pos with
  | zero => simp [siftdownGo]
  | succ p =>
    simp only [siftdownGo]
    split_ifs with h3 h4
    · exact siftdownGo_congr startpos newitem p _ ((p + 1 - 1) / 2)
        ((p + 1 - 1) / 2) (by omega) le_rfl
    · rfl
    · rfl

/-- Fuel-bounded engine behind `siftupLoop` (`heap.length - pos` strictly
decreases, so `heap.length` steps of fuel always suffice). -/
def siftupGo (startpos : Nat) (newitem : Node) :
    Nat → List Node → Nat → List Node
  | 0, heap, pos => siftdownAux (heap.set pos newitem) startpos pos newitem
  | fuel + 1, heap, pos =>
    if 2 * pos + 1 < heap.length then
      if 2 * pos + 2 < heap.length ∧
         ¬ Node.lt (heap.getD (2 * pos + 1) default)
           (heap.getD (2 * pos + 2) default) = true then
        siftupGo startpos newitem fuel
          (heap.set pos (heap.getD (2 * pos + 2) default)) (2 * pos + 2)
      else
        siftupGo startpos newitem fuel
          (heap.set pos (heap.getD (2 * pos + 1) default)) (2 * pos + 1)
    else
      siftdownAux (heap.set pos newitem) startpos pos newitem

/-- The descend loop of CPython `heapq._siftup`: repeatedly move the smaller
child up, then place `newitem` and call `_siftdown`. -/
def siftupLoop (heap : List Node) (startpos pos : Nat) (newitem : Node) :
    List Node :=
  siftupGo startpos newitem (heap.length - pos) heap pos

/-- `siftupGo` ignores the fuel once it covers `heap.length - pos`. -/
theorem siftupGo_congr (startpos : Nat) (newitem : Node) :
    ∀ (f1 : Nat) (heap : List Node) (pos : Nat) (f2 : Nat),
    heap.length - pos ≤ f1 → heap.length - pos ≤ f2 →
    siftupGo startpos newitem f1 heap pos =
      siftupGo startpos newitem f2 heap pos := by
  intro f1
  induction f1 with
  | zero =>
    intro heap pos f2 h1 _
    cases f2 with
    | zero => rfl
    | succ m =>
      simp only [siftupGo]
      split_ifs with h3 h4
      · omega
      · omega
      · rfl
  | succ k ih =>
    intro heap pos f2 h1 h2
    cases f2 with
    | zero =>
      simp only [siftupGo]
      split_ifs with h3 h4
      · omega
      · omega
      · rfl
    | succ m =>
      simp only [siftupGo]
      split_ifs with h3 h4
      · exact ih _ _ m (by simp only [List.length_set]; omega)
          (by simp only [List.length_set]; omega)
      · exact ih _ _ m (by simp only [List.length_set]; omega)
          (by simp only [List.length_set]; omega)
      · rfl

/-- The defining equation of `siftupLoop`. -/
theorem siftupLoop_eq (heap : List Node) (startpos pos : Nat)
    (newitem : Node) :
    siftupLoop heap startpos pos newitem =
      if 2 * pos + 1 < heap.length then
        (if 2 * pos + 2 < heap.length ∧
            ¬ Node.lt (heap.getD (2 * pos + 1) default)
              (heap.getD (2 * pos + 2) default) = true then
          siftupLoop (heap.set pos (heap.getD (2 * pos + 2) default)) startpos
            (2 * pos + 2) newitem
        else
          siftupLoop (heap.set pos (heap.getD (2 * pos + 1) default)) startpos
            (2 * pos + 1) newitem)
      else
        siftdownAux (heap.set pos newitem) startpos pos newitem := by
  show siftupGo startpos newitem (heap.length - pos) heap pos = _
  rcases hf : heap.length - pos with _ | k
  · simp only [siftupGo]
    split_ifs with h3 h4
    · omega
    · omega
    · rfl
  · simp only [siftupGo]
    split_ifs with h3 h4
    · show siftupGo startpos newitem k
        (heap.set pos (heap.getD (2 * pos + 2) default)) (2 * pos + 2) =
        siftupLoop (heap.set pos (heap.getD (2 * pos + 2) default)) startpos
          (2 * pos + 2) newitem
      apply siftupGo_congr
      · simp only [List.length_set]; omega
      · exact le_rfl
    · show siftupGo startpos newitem k
        (heap.set pos (heap.getD (2 * pos + 1) default)) (2 * pos + 1) =
        siftupLoop (heap.set pos (heap.getD (2 * pos + 1) default)) startpos
          (2 * pos + 1) newitem
      apply siftupGo_congr
      · simp only [List.length_set]; omega
      · exact le_rfl
    · rfl

/-- CPython `heapq._siftup(heap, pos)` (reads `newitem = heap[pos]`). -/
def siftup (heap : List Node) (pos : Nat) : List Node :=
  siftupLoop heap pos pos (heap.getD pos default)

/-- The loop `for i in reversed(range(n // 2)): _siftup(x, i)`. -/
def heapifyLoop : List Node → Nat → List Node
  | heap, 0 => heap
  | heap, i + 1 => heapifyLoop (siftup heap i) i

/-- CPython `heapq.heapify`. -/
def pyHeapify (heap : List Node) : List Node :=
  heapifyLoop heap (heap.length / 2)

/-- CPython `heapq.heappush`: append, then `_siftdown(heap, 0, len(heap)-1)`. -/
def heappush (heap : List Node) (item : Node) : List Node :=
  siftdownAux (heap ++ [item]) 0 heap.length item

/-- CPython `heapq.heappop`: pop the last element; if the heap is still
non-empty, move it to the root and `_siftup(heap, 0)`. -/
def heappop (heap : List Node) : Option (Node × List Node) :=
  match heap.getLast? with
  | none => none
  | some lastelt =>
    let rest := heap.dropLast
    if rest.isEmpty then some (lastelt, [])
    else some (rest.getD 0 default, siftup (rest.set 0 lastelt) 0)

/-- The `while len(heap) > 1` merge loop of `build_huffman_tree`; `fuel`
bounds the rounds (each round shrinks the heap by one, so the initial length
suffices — `mergeLoop_complete` below). -/
def mergeLoop : Nat → List Node → Option Node
  | _, [] => none
  | _, [x] => some x
  | 0, _ :: _ :: _ => none
  | fuel + 1, heap =>
    match heappop heap with
    | none => none
    | some (left, h1) =>
      match heappop h1 with
      | none => none
      | some (right, h2) =>
        mergeLoop fuel (heappush h2 (.internal (left.freq + right.freq) left right))

/-- `build_huffman_tree(freq_table)`: heapify one leaf per table entry (in
iteration order), return `None` on an empty table, else merge down to a root. -/
def build_huffman_tree (freq_table : List (Symbol × Nat)) : Option Node :=
  let heap := pyHeapify (freq_table.map (fun p => Node.leaf p.1 p.2))
  mergeLoop heap.length heap

/-- `generate_codes` on a (non-`None`) node: collect the `self.codes`
assignments in traversal order; bit `false` is "0" (left), `true` is "1"
(right).  A leaf reached with an empty prefix gets code "0". -/
def generateCodesNode : Node → List Bool → List (Symbol × List Bool)
  | .leaf c _, pref => [(c, if pref.isEmpty then [false] else pref)]
  | .internal _ l r, pref =>
    generateCodesNode l (pref ++ [false]) ++ generateCodesNode r (pref ++ [true])

/-- `generate_codes(node, prefix)` (the `node is None` guard returns
nothing). -/
def generate_codes : Option Node → List Bool → List (Symbol × List Bool)
  | none, _ => []
  | some n, pref => generateCodesNode n pref

/-! ## Decoder -/

/-- The bit loop of `decode_with_tree`.  The current node is an `Option`:
`node = node.left if bit == "0" else node.right` can set it to `None`, and the
next iteration's attribute access then raises AttributeError — modelled as the
`none` result.  Reaching a leaf appends its char and resets to the root. -/
def decodeLoop (root : Node) :
    Option Node → List Bool → List Symbol → Option (List Symbol)
  | _, [], acc => some acc.reverse
  | none, _ :: _, _ => none
  | some n, b :: rest, acc =>
    match (if b then n.right? else n.left?) with
    | none => decodeLoop root none rest acc
    | some m =>
      match m.char? with
      | some c => decodeLoop root (some root) rest (c :: acc)
      | none => decodeLoop root (some m) rest acc

/-- `decode_with_tree(encoded_text)`: empty bits or a missing root return ""
immediately; otherwise run the bit loop from the root. -/
def decode_with_tree (root : Option Node) (bits : List Bool) :
    Option (List Symbol) :=
  match root with
  | none => some []
  | some r => if bits.isEmpty then some [] else decodeLoop r (some r) bits []

/-- `unpack_bits(byte_data, padding)`: concatenate each byte's 8-bit string,
then drop the trailing `padding` bits (`bitstring[:-padding]`, only when
`padding` is non-zero). -/
def unpack_bits (byte_data : List Nat) (padding : Nat) : List Bool :=
  let bitstring := byte_data.flatMap natToBits8
  if padding = 0 then bitstring else bitstring.take (bitstring.length - padding)

/-! ## Streaming hybrid compressor -/

/-- One record of `chunks_meta["chunks"]`. -/
structure ChunkMeta where
  index : Nat
  offset : Nat
  length : Nat
  padding : Nat
  tokens : Nat
deriving DecidableEq

/-- The mutable state of the second (encoding) pass of
`compress_file_streaming_hybrid`. -/
structure EncState where
  bit_buffer : List Bool
  payload : List Nat
  chunk_start_offset : Nat
  bytes_written_chunk : Nat
  tokens_in_chunk : Nat
  total_tokens_seen : Nat
  chunk_index : Nat
  chunks : List ChunkMeta
deriving DecidableEq

/-- The encoder state as the second pass starts (`cf.tell()` is 0). -/
def initEncState : EncState := ⟨[], [], 0, 0, 0, 0, 0, []⟩

/-- Fuel-bounded engine behind `flushBytes`. -/
def flushGo : Nat → List Bool → List Nat × List Bool
  | 0, bits => ([], bits)
  | fuel + 1, bits =>
    if 8 ≤ bits.length then
      (bitsToNat (bits.take 8) :: (flushGo fuel (bits.drop 8)).1,
        (flushGo fuel (bits.drop 8)).2)
    else ([], bits)

/-- The `while len(bit_buffer) >= 8` flush loop: the bytes written (in order)
and the remaining buffer of fewer than 8 bits. -/
def flushBytes (bits : List Bool) : List Nat × List Bool :=
  flushGo bits.length bits

/-- `flushGo` ignores the fuel once it covers the buffer length. -/
theorem flushGo_congr : ∀ (f1 : Nat) (bits : List Bool) (f2 : Nat),
    bits.length ≤ f1 → bits.length ≤ f2 →
    flushGo f1 bits = flushGo f2 bits := by
  intro f1
  induction f1 with
  | zero =>
    intro bits f2 h1 _
    have hb : bits = [] := List.length_eq_zero.1 (Nat.le_zero.1 h1)
    subst hb
    cases f2 with
    | zero => rfl
    | succ m => simp [flushGo]
  | succ k ih =>
    intro bits f2 h1 h2
    cases f2 with
    | zero =>
      have hb : bits = [] := List.length_eq_zero.1 (Nat.le_zero.1 h2)
      subst hb
      simp [flushGo]
    | succ m =>
      simp only [flushGo]
      split_ifs with h3
      · rw [ih (bits.drop 8) m (by simp [List.length_drop]; omega)
          (by simp [List.length_drop]; omega)]
      · rfl

/-- The defining equation of `flushBytes`. -/
theorem flushBytes_eq (bits : List Bool) :
    flushBytes bits =
      if 8 ≤ bits.length then
        (bitsToNat (bits.take 8) :: (flushBytes (bits.drop 8)).1,
          (flushBytes (bits.drop 8)).2)
      else ([], bits) := by
  by_cases h8 : 8 ≤ bits.length
  · rw [if_pos h8]
    show flushGo bits.length bits = _
    rcases hk : bits.length with _ | k
    · omega
    · simp only [flushGo]
      rw [if_pos (by omega)]
      rw [flushGo_congr k (bits.drop 8) (bits.drop 8).length
        (by simp [List.length_drop]; omega) le_rfl]
      rfl
  · rw [if_neg h8]
    show flushGo bits.length bits = ([], bits)
    rcases hk : bits.length with _ | k
    · have hb : bits = [] := List.length_eq_zero.1 hk
      subst hb
      rfl
    · simp only [flushGo]
      rw [if_neg (by omega)]

/-- The `sentence_boundaries` set `{".", "!", "?", "\n"}`. -/
def sentence_boundaries : List Symbol := [['.'], ['!'], ['?'], ['\n']]

/-- Lookup in the `self.codes` dict: `generate_codes` assigned entries in
traversal order with later assignments overwriting, so the last matching
entry wins. -/
def lookupCode (codes : List (Symbol × List Bool)) (s : Symbol) :
    Option (List Bool) :=
  match codes with
  | [] => none
  | (t, c) :: rest =>
    match lookupCode rest s with
    | some c2 => some c2
    | none => if t = s then some c else none

/-- One iteration of the token loop of `compress_file_streaming_hybrid`:
append the token's code, flush whole bytes, and close the chunk when the
hybrid condition holds.  `none` models the KeyError of `hc.codes[token]`. -/
def encodeStep (codes : List (Symbol × List Bool)) (mode : Mode)
    (target_chunk_bytes : Nat) (st : EncState) (token : Symbol) :
    Option EncState :=
  match lookupCode codes token with
  | none => none
  | some code =>
    let buf1 := st.bit_buffer ++ code
    let fl := flushBytes buf1
    let payload1 := st.payload ++ fl.1
    let written1 := st.bytes_written_chunk + fl.1.length
    let tokens1 := st.tokens_in_chunk + 1
    let seen1 := st.total_tokens_seen + 1
    if target_chunk_bytes ≤ written1 ∧ (mode = .char ∨ token ∈ sentence_boundaries)
    then
      let padding := (8 - fl.2.length % 8) % 8
      let buf3 := if padding = 0 then fl.2
                  else fl.2 ++ List.replicate padding false
      let fl2 := if padding = 0 then ([], fl.2) else flushBytes buf3
      let payload2 := payload1 ++ fl2.1
      let written2 := written1 + fl2.1.length
      some { bit_buffer := []
             payload := payload2
             chunk_start_offset := payload2.length
             bytes_written_chunk := 0
             tokens_in_chunk := 0
             total_tokens_seen := seen1
             chunk_index := st.chunk_index + 1
             chunks := st.chunks ++
               [⟨st.chunk_index, st.chunk_start_offset, written2, padding, tokens1⟩] }
    else
      some { st with bit_buffer := fl.2
                     payload := payload1
                     bytes_written_chunk := written1
                     tokens_in_chunk := tokens1
                     total_tokens_seen := seen1 }

/-- The EOF block: zero-pad and flush the residual bits, and record a final
chunk if any bytes or tokens remain. -/
def finalizeEnc (st : EncState) : EncState :=
  if st.bit_buffer ≠ [] ∨ 0 < st.bytes_written_chunk ∨ 0 < st.tokens_in_chunk
  then
    let padding := (8 - st.bit_buffer.length % 8) % 8
    let buf3 := if padding = 0 then st.bit_buffer
                else st.bit_buffer ++ List.replicate padding false
    let fl2 := flushBytes buf3
    let payload2 := st.payload ++ fl2.1
    let written2 := st.bytes_written_chunk + fl2.1.length
    if 0 < written2 ∨ 0 < st.tokens_in_chunk then
      { st with bit_buffer := fl2.2
                payload := payload2
                bytes_written_chunk := written2
                chunks := st.chunks ++
                  [⟨st.chunk_index, st.chunk_start_offset, written2, padding,
                    st.tokens_in_chunk⟩] }
    else
      { st with bit_buffer := fl2.2
                payload := payload2
                bytes_written_chunk := written2 }
  else st

/-- The whole token loop followed by the EOF block. -/
def encodeAll (codes : List (Symbol × List Bool)) (mode : Mode)
    (target_chunk_bytes : Nat) : EncState → List Symbol → Option EncState
  | st, [] => some (finalizeEnc st)
  | st, t :: ts =>
    match encodeStep codes mode target_chunk_bytes st t with
    | none => none
    | some st2 => encodeAll codes mode target_chunk_bytes st2 ts

/-- The container `compress_file_streaming_hybrid` writes: the `.huff` byte
payload, the global metadata and the chunk index. -/
structure Container where
  payload : List Nat
  freq : List (Symbol × Nat)
  total_tokens : Nat
  mode : Mode
  target_chunk_bytes : Nat
  chunks : List ChunkMeta
deriving DecidableEq

/-- The observable outcomes of `compress_file_streaming_hybrid`:
`emptyReturn` is the `print("[ERROR] Empty file or no tokens found."); return`
path (a plain `return None`, no exception); `keyError` models the KeyError of
`hc.codes[token]` (never taken: both passes stream the same tokens). -/
inductive CompressResult
  | emptyReturn
  | keyError
  | ok (c : Container)
deriving DecidableEq

/-- `compress_file_streaming_hybrid(text, mode, target_chunk_bytes)`: first
pass builds the global frequency table, then one tree and code table, then the
second pass encodes into hybrid chunks.  The token stream uses the default
read-buffer size of 2^20 characters. -/
def compress_file_streaming_hybrid (text : List Char) (mode : Mode)
    (target_chunk_bytes : Nat) : CompressResult :=
  let tokens := stream_tokens_from_file text mode (1024 * 1024)
  let ft := build_frequency_table_streaming tokens
  if ft.1.isEmpty then .emptyReturn
  else
    let root := build_huffman_tree ft.1
    let codes := generate_codes root []
    match encodeAll codes mode target_chunk_bytes initEncState tokens with
    | none => .keyError
    | some stF =>
      .ok ⟨stF.payload, ft.1, ft.2, mode, target_chunk_bytes, stF.chunks⟩

/-- `decompress_file_streaming_hybrid`: rebuild the tree from the persisted
global frequency table (`json` round-trips preserve the dict order), decode
each chunk's byte range independently (stripping its own padding), and
concatenate the decoded texts.  `none` models the AttributeError that
`decode_with_tree` can raise. -/
def decompress_file_streaming_hybrid (payload : List Nat)
    (freq : List (Symbol × Nat)) (chunks : List ChunkMeta) :
    Option (List Char) :=
  let root := build_huffman_tree freq
  match chunks.mapM (fun ch =>
      decode_with_tree root
        (unpack_bits ((payload.drop ch.offset).take ch.length) ch.padding)) with
  | none => none
  | some parts => some (parts.map List.flatten).flatten

/-! ## Lazy reader (`huffman_reader.py`) -/

/-- `PAGE_WORD_COUNT`: 250 tokens per page. -/
def PAGE_WORD_COUNT : Nat := 250

/-- `self.words_per_chunk`: the per-chunk `tokens` counts. -/
def words_per_chunk (chunks : List ChunkMeta) : List Nat :=
  chunks.map (·.tokens)

/-- `self.total_words`. -/
def total_words (chunks : List ChunkMeta) : Nat :=
  (words_per_chunk chunks).sum

/-- `self.page_count`: ceiling of `total_words / PAGE_WORD_COUNT`. -/
def page_count (chunks : List ChunkMeta) : Nat :=
  (total_words chunks + PAGE_WORD_COUNT - 1) / PAGE_WORD_COUNT

/-- The running-sum loop building `self.chunk_word_ranges`. -/
def rangesFrom (running : Nat) : List Nat → List (Nat × Nat)
  | [] => []
  | c :: cs => (running, running + c) :: rangesFrom (running + c) cs

/-- `self.chunk_word_ranges`: the `[start, end)` token range of each chunk. -/
def chunk_word_ranges (chunks : List ChunkMeta) : List (Nat × Nat) :=
  rangesFrom 0 (words_per_chunk chunks)

/-- `find_chunks_for_page(page_index)`: the indices of the chunks whose token
range overlaps the page's `[start_word, end_word)`, with those bounds. -/
def find_chunks_for_page (chunks : List ChunkMeta) (page_index : Nat) :
    List Nat × Nat × Nat :=
  let start_word := page_index * PAGE_WORD_COUNT
  let end_word := min (total_words chunks) (start_word + PAGE_WORD_COUNT)
  let rs := chunk_word_ranges chunks
  let needed := (List.range rs.length).filter (fun i =>
    let r := rs.getD i (0, 0)
    !(decide (end_word ≤ r.1) || decide (start_word ≥ r.2)))
  (needed, start_word, end_word)

/-- `self.decoded_cache`: chunk index to decoded word list. -/
abbrev Cache := List (Nat × List Symbol)

/-- `decode_chunk(chunk_index)`: return the cached entry, else slice the
chunk's bytes, unpack, decode with the shared tree, split the decoded text on
whitespace, and cache the word list.  `none` models a decode AttributeError
or an out-of-range chunk index. -/
def decode_chunk (data : List Nat) (root : Option Node)
    (chunks : List ChunkMeta) (cache : Cache) (i : Nat) :
    Option (List Symbol × Cache) :=
  match cache.lookup i with
  | some ws => some (ws, cache)
  | none =>
    match chunks.get? i with
    | none => none
    | some ch =>
      match decode_with_tree root
          (unpack_bits ((data.drop ch.offset).take ch.length) ch.padding) with
      | none => none
      | some toks =>
        let ws := pySplit toks.flatten
        some (ws, cache ++ [(i, ws)])

/-- The `for ci in needed_chunks: all_words.extend(decode_chunk(ci))` loop. -/
def decodeChunks (data : List Nat) (root : Option Node)
    (chunks : List ChunkMeta) : Cache → List Nat →
    Option (List Symbol × Cache)
  | cache, [] => some ([], cache)
  | cache, i :: is =>
    match decode_chunk data root chunks cache i with
    | none => none
    | some (ws, cache2) =>
      match decodeChunks data root chunks cache2 is with
      | none => none
      | some (rest, cache3) => some (ws ++ rest, cache3)

/-- Python list slicing `a[i:j]` (negative indices count from the end). -/
def pySlice (l : List Symbol) (i j : Int) : List Symbol :=
  let n : Int := l.length
  let lo := (if i < 0 then max 0 (n + i) else min i n).toNat
  let hi := (if j < 0 then max 0 (n + j) else min j n).toNat
  (l.take hi).drop lo

/-- The outcome of `show_page`. -/
inductive PageResult
  | noContent
  | page (words : List Symbol) (cache : Cache)
  | error
deriving DecidableEq

/-- `show_page` on a loaded book: show "[No content loaded]" when there are no
pages, clamp the page index into `[0, page_count-1]`, find and decode the
needed chunks (through the cache), and slice the concatenated word list with
the token-count offsets rebased by the first needed chunk's start.  `error`
models the IndexError on `needed_chunks[0]` and decode failures. -/
def show_page (data : List Nat) (root : Option Node)
    (chunks : List ChunkMeta) (cache : Cache) (current_page : Int) :
    PageResult :=
  if page_count chunks = 0 then .noContent
  else
    let current := (max 0 (min current_page (page_count chunks - 1 : Int))).toNat
    let fc := find_chunks_for_page chunks current
    match decodeChunks data root chunks cache fc.1 with
    | none => .error
    | some (all_words, cache2) =>
      match fc.1.head? with
      | none => .error
      | some i0 =>
        let base := ((chunk_word_ranges chunks).getD i0 (0, 0)).1
        .page
          (pySlice all_words ((fc.2.1 : Int) - base) ((fc.2.2 : Int) - base))
          cache2

/-! ## `chunk_compressor.py` -/

/-- `PAGE_SIZE` of chunk_compressor.py: 2000 words per chunk. -/
def PAGE_SIZE : Nat := 2000

/-- `[words[i:i+PAGE_SIZE] for i in range(0, len(words), PAGE_SIZE)]`. -/
def chunkGroups : List Symbol → List (List Symbol)
  | [] => []
  | w :: ws => ((w :: ws).take PAGE_SIZE) :: chunkGroups ((w :: ws).drop PAGE_SIZE)
termination_by l => l.length
decreasing_by simp only [List.length_drop, List.length_cons, PAGE_SIZE]; omega

/-- The attribute names defined on `HuffmanCoding` (its `__init__` fields and
its methods).  Neither `encode` nor `pack_bits` is among them. -/
def huffmanCodingAttrs : List String :=
  ["codes", "reverse_codes", "root",
   "build_huffman_tree", "generate_codes", "decode_with_tree",
   "unpack_bits", "visualize_tree"]

/-- Python attribute lookup on a `HuffmanCoding` instance. -/
def hasHCAttr (name : String) : Bool :=
  huffmanCodingAttrs.contains name

/-- The outcomes of `chunk_book`: completing normally (with the chunk metadata
entries and the payload bytes written), or an AttributeError naming the
missing attribute, with the bytes written before it was raised. -/
inductive ChunkBookResult
  | attributeError (missing : String) (bytesWritten : List Nat)
  | ok (metaChunks : List (Nat × Nat × Nat)) (bytesWritten : List Nat)
  | unmodeled
deriving DecidableEq

/-- The per-chunk loop of `chunk_book`.  The first operation on a chunk is the
call `hc.encode(chunk_text, mode="word")`; its attribute lookup fails, so the
rest of the body is unreachable (`unmodeled` marks the branch an interpreter
can never take, since `hasHCAttr "encode"` is false). -/
def chunkBookLoop (written : List Nat) : List (List Symbol) → ChunkBookResult
  | [] => .ok [] written
  | _chunk :: _rest =>
    if hasHCAttr "encode" then .unmodeled
    else .attributeError "encode" written

/-- `chunk_book(text)`: split the text into whitespace-separated words, group
them into 2000-word chunks, then run the writing loop (which writes nothing
before the first `hc.encode` call). -/
def chunk_book (text : List Char) : ChunkBookResult :=
  chunkBookLoop [] (chunkGroups (pySplit text))

/-! ## Basic lemmas -/

theorem bits8_roundtrip : ∀ b0 b1 b2 b3 b4 b5 b6 b7 : Bool,
    natToBits8 (bitsToNat [b0, b1, b2, b3, b4, b5, b6, b7]) =
      [b0, b1, b2, b3, b4, b5, b6, b7] := by decide

theorem natToBits8_bitsToNat (bs : List Bool) (h : bs.length = 8) :
    natToBits8 (bitsToNat bs) = bs := by
  rcases bs with _ | ⟨b0, bs⟩; · simp at h
  rcases bs with _ | ⟨b1, bs⟩; · simp at h
  rcases bs with _ | ⟨b2, bs⟩; · simp at h
  rcases bs with _ | ⟨b3, bs⟩; · simp at h
  rcases bs with _ | ⟨b4, bs⟩; · simp at h
  rcases bs with _ | ⟨b5, bs⟩; · simp at h
  rcases bs with _ | ⟨b6, bs⟩; · simp at h
  rcases bs with _ | ⟨b7, bs⟩; · simp at h
  rcases bs with _ | ⟨b8, bs⟩
  · exact bits8_roundtrip b0 b1 b2 b3 b4 b5 b6 b7
  · simp [List.length_cons] at h

/-- The flush loop writes bytes whose bits are exactly the consumed buffer,
leaving fewer than 8 bits. -/
theorem flushBytes_spec (bits : List Bool) :
    (flushBytes bits).1.flatMap natToBits8 ++ (flushBytes bits).2 = bits ∧
      (flushBytes bits).2.length < 8 := by
  have main : ∀ (fuel : Nat) (bs : List Bool), bs.length ≤ fuel →
      (flushGo fuel bs).1.flatMap natToBits8 ++ (flushGo fuel bs).2 = bs ∧
        (flushGo fuel bs).2.length < 8 := by
    intro fuel
    induction fuel with
    | zero =>
      intro bs h
      have hb : bs = [] := List.length_eq_zero.1 (Nat.le_zero.1 h)
      subst hb
      exact ⟨rfl, by simp [flushGo]⟩
    | succ k ih =>
      intro bs h
      simp only [flushGo]
      split_ifs with h8
      · have ihd := ih (bs.drop 8) (by simp [List.length_drop]; omega)
        constructor
        · show (bitsToNat (bs.take 8) :: (flushGo k (bs.drop 8)).1).flatMap
            natToBits8 ++ (flushGo k (bs.drop 8)).2 = bs
          rw [List.flatMap_cons]
          rw [natToBits8_bitsToNat (bs.take 8)
            (by simp [List.length_take]; omega)]
          rw [List.append_assoc, ihd.1, List.take_append_drop]
        · exact ihd.2
      · refine ⟨rfl, ?_⟩
        show bs.length < 8
        omega
  exact main bits.length bits le_rfl

theorem freqBump_ne_nil (t : List (Symbol × Nat)) (s : Symbol) :
    freqBump t s ≠ [] := by
  cases t with
  | nil => simp [freqBump]
  | cons p rest =>
    obtain ⟨a, b⟩ := p
    simp only [freqBump]
    split <;> simp

theorem foldl_freqBump_ne_nil (ts : List Symbol) :
    ∀ acc : List (Symbol × Nat), acc ≠ [] → ts.foldl freqBump acc ≠ [] := by
  induction ts with
  | nil => intro acc h; simpa using h
  | cons t ts ih =>
    intro acc _
    exact ih (freqBump acc t) (freqBump_ne_nil acc t)

theorem foldl_freqBump_nil_iff (ts : List Symbol) :
    ts.foldl freqBump [] = [] ↔ ts = [] := by
  cases ts with
  | nil => simp
  | cons t ts =>
    simp only [List.foldl_cons, iff_false, ne_eq, reduceCtorEq]
    exact fun h =>
      foldl_freqBump_ne_nil ts (freqBump [] t) (freqBump_ne_nil [] t) h

/-! ## C5: empty input

The source has no `EmptyInputError` (no exception class is defined or raised
on this path): `compress_file_streaming_hybrid` prints
`"[ERROR] Empty file or no tokens found."` and plain-returns `None`
(`CompressResult.emptyReturn`). -/

/-- **C5 counterexample**: on an empty file, compression returns early with
`None` after printing — the `emptyReturn` outcome, which by construction of
`CompressResult` is a normal return, not a raised `EmptyInputError` (no such
exception exists anywhere in the source). -/
theorem compress_empty_input_returns_early :
    compress_file_streaming_hybrid [] .char 512 = .emptyReturn := by decide

/-- **C5 (amended)**: compression takes the early-`return None` path exactly
when the token stream is empty; in particular it never reports a zero-chunk
success container for empty input (the `ok` outcome is only reached on a
non-empty stream), but it raises no `EmptyInputError` either. -/
theorem compress_emptyReturn_iff_no_tokens (text : List Char) (mode : Mode)
    (target : Nat) :
    compress_file_streaming_hybrid text mode target = .emptyReturn ↔
      stream_tokens_from_file text mode (1024 * 1024) = [] := by
  unfold compress_file_streaming_hybrid
  simp only [build_frequency_table_streaming]
  constructor
  · intro h
    split at h
    · rename_i hemp
      rw [List.isEmpty_iff] at hemp
      exact (foldl_freqBump_nil_iff _).1 hemp
    · split at h <;> simp_all
  · intro h
    rw [h]
    simp [freqBump]

/-! ## C9: `chunk_book` calls the undefined `hc.encode` -/

theorem chunkGroups_nil_iff (l : List Symbol) : chunkGroups l = [] ↔ l = [] := by
  cases l with
  | nil => simp [chunkGroups]
  | cons w ws => rw [chunkGroups]; simp

/-- **C9**: `chunk_book` on any text splitting into at least one word raises
AttributeError at the first chunk — its very first per-chunk operation is
`hc.encode(...)`, and `HuffmanCoding` defines no `encode` attribute — with no
payload byte written; a text with no words skips the loop entirely and
completes with empty chunk metadata and an empty payload. -/
theorem chunk_book_attribute_error (text : List Char) :
    chunk_book text =
      if pySplit text = [] then .ok [] []
      else .attributeError "encode" [] := by
  unfold chunk_book
  rcases h : chunkGroups (pySplit text) with _ | ⟨g, gs⟩
  · rw [(chunkGroups_nil_iff _).1 h]
    simp [chunkBookLoop]
  · have : pySplit text ≠ [] := by
      intro hc
      rw [hc] at h
      simp [chunkGroups] at h
    rw [if_neg this]
    simp only [chunkBookLoop]
    have : hasHCAttr "encode" = false := by decide
    rw [this]
    simp

/-! ## C10: word-mode tokenization drops non-ASCII word characters -/

/-- A character is kept by the word tokenizer iff it matches one of the four
alternatives of TOKEN_PATTERN. -/
def keptChar (c : Char) : Bool :=
  isWordRunChar c || isAsciiDigit c ||
    (!pyIsWordChar c && !pyIsSpace c) || pyIsSpace c

theorem keptChar_of_isWordRunChar (c : Char) (h : isWordRunChar c = true) :
    keptChar c = true := by
  simp [keptChar, h]

theorem findallGo_flatten : ∀ (fuel : Nat) (text : List Char),
    text.length ≤ fuel →
    (findallGo fuel text).flatten = text.filter keptChar := by
  intro fuel
  induction fuel with
  | zero =>
    intro text h
    have hb : text = [] := List.length_eq_zero.1 (Nat.le_zero.1 h)
    subst hb
    rfl
  | succ n ih =>
    intro text h
    cases text with
    | nil => rfl
    | cons c cs =>
      simp only [List.length_cons, Nat.succ_le_succ_iff] at h
      have hd : (cs.dropWhile isWordRunChar).length ≤ cs.length :=
        (List.dropWhile_suffix isWordRunChar).length_le
      simp only [findallGo]
      split_ifs with h1 h2 h3 h4
      · simp only [List.flatten_cons]
        rw [ih (cs.dropWhile isWordRunChar) (le_trans hd h)]
        have hrun : cs.takeWhile isWordRunChar =
            (cs.takeWhile isWordRunChar).filter keptChar := by
          refine (List.filter_eq_self.2 ?_).symm
          intro a ha
          exact keptChar_of_isWordRunChar a (List.mem_takeWhile_imp ha)
        calc (c :: cs.takeWhile isWordRunChar) ++
            (cs.dropWhile isWordRunChar).filter keptChar
            = c :: (cs.takeWhile isWordRunChar ++
                (cs.dropWhile isWordRunChar).filter keptChar) := by simp
          _ = c :: ((cs.takeWhile isWordRunChar).filter keptChar ++
                (cs.dropWhile isWordRunChar).filter keptChar) := by
                rw [← hrun]
          _ = (c :: cs).filter keptChar := by
                rw [← List.filter_append, List.takeWhile_append_dropWhile]
                simp [List.filter_cons, keptChar_of_isWordRunChar c h1]
      · simp only [List.flatten_cons]
        rw [ih cs h]
        have hk : keptChar c = true := by simp [keptChar, h2]
        simp [List.filter_cons, hk]
      · simp only [List.flatten_cons]
        rw [ih cs h]
        have hk : keptChar c = true := by
          simp only [keptChar, h3]
          simp
        simp [List.filter_cons, hk]
      · simp only [List.flatten_cons]
        rw [ih cs h]
        have hk : keptChar c = true := by simp [keptChar, h4]
        simp [List.filter_cons, hk]
      · rw [ih cs h]
        have hk : keptChar c = false := by
          simp only [keptChar, Bool.or_eq_false_iff]
          simp only [Bool.not_eq_true] at h1 h2 h4
          refine ⟨⟨⟨h1, h2⟩, ?_⟩, h4⟩
          simp only [Bool.and_eq_false_iff, Bool.not_eq_true]
          simp only [Bool.and_eq_true, Bool.not_eq_true'] at h3
          push_neg at h3
          by_cases hw : pyIsWordChar c
          · left; simp [hw]
          · right
            simp only [Bool.not_eq_true] at hw
            have := h3 hw
            simp [this, h4] at *
        simp [List.filter_cons, hk]

/-- The concatenation of the word-mode tokens is the input text with every
character matching no TOKEN_PATTERN alternative removed. -/
theorem findallTokens_flatten (text : List Char) :
    (findallTokens text).flatten = text.filter keptChar :=
  findallGo_flatten text.length text le_rfl

/-- **C10**: a character that is a word character for the regex but matches
none of the four token classes (not `[A-Za-z_]`, not `[0-9]`, hence not
`[^\w\s]` and not `\s`) is silently dropped by the word-mode tokenizer, so
the concatenation of the tokens differs from the text. -/
theorem word_mode_drops_nonascii_word_chars (text : List Char) (c : Char)
    (hmem : c ∈ text) (hword : pyIsWordChar c = true)
    (hletter : isWordRunChar c = false) (hdigit : isAsciiDigit c = false) :
    (tokenize_text text .word).flatten ≠ text := by
  have hspace : pyIsSpace c = false := by
    revert hword
    simp only [pyIsWordChar, pyIsSpace, pyIsAlpha, isAsciiLetter, isAsciiDigit,
      Bool.or_eq_true, Bool.and_eq_true, decide_eq_true_eq, Bool.not_eq_true',
      decide_eq_false_iff_not]
    intro h
    simp only [Bool.or_eq_false_iff, Bool.and_eq_false_iff,
      decide_eq_false_iff_not]
    omega
  have hkept : keptChar c = false := by
    simp [keptChar, hletter, hdigit, hword, hspace]
  have : ((tokenize_text text .word).flatten).length < text.length := by
    rw [tokenize_text, findallTokens_flatten]
    exact List.length_filter_lt_length_iff_exists.2 ⟨c, hmem, by simp [hkept]⟩
  intro heq
  rw [heq] at this
  omega

/-- **C10 witness**: the text "café" — `é` (U+00E9) is a Unicode word
character outside all four token classes, and word-mode tokenization of
"café" concatenates to "caf". -/
theorem word_mode_drops_nonascii_word_chars_witness :
    'é' ∈ ['c', 'a', 'f', 'é'] ∧
      (tokenize_text ['c', 'a', 'f', 'é'] .word).flatten ≠ ['c', 'a', 'f', 'é'] :=
  ⟨by decide,
    word_mode_drops_nonascii_word_chars ['c', 'a', 'f', 'é'] 'é' (by decide)
      (by decide) (by decide) (by decide)⟩

/-! ## C6: the single-symbol special case -/

/-- **C6 (code bug)**: a corpus of one distinct symbol (here char-mode "a",
so the table is `{a: 1}`) does give a one-leaf tree whose single code is "0"
— but decoding the encoded bitstream with that tree does **not** return the
symbol: `decode_with_tree` steps from the leaf root to `None` on the first
bit and never emits, returning "" for N = 1, and raising AttributeError
(modelled `none`) for N = 2 (bits "00"). -/
theorem single_symbol_tree_code_and_decode_bug :
    build_huffman_tree [(['a'], 1)] = some (.leaf ['a'] 1) ∧
    generate_codes (build_huffman_tree [(['a'], 1)]) [] = [(['a'], [false])] ∧
    decode_with_tree (build_huffman_tree [(['a'], 1)]) [false] = some [] ∧
    some ([] : List Symbol) ≠ some [['a']] ∧
    decode_with_tree (build_huffman_tree [(['a'], 1)]) [false, false] = none := by
  decide

/-! ## Heap permutation lemmas

CPython's `heapq` operations permute the list contents: each sift is a cyclic
rotation along a path.  We prove the permutation and length facts needed to
track the multiset of tree leaves through `build_huffman_tree`. -/

/-- The leaf symbols of a tree, in left-to-right order. -/
def Node.leaves : Node → List Symbol
  | .leaf c _ => [c]
  | .internal _ l r => l.leaves ++ r.leaves

/-- The leaf symbols of every node of a heap. -/
def heapLeaves (h : List Node) : List Symbol :=
  (h.map Node.leaves).flatten

theorem heapLeaves_perm {h1 h2 : List Node} (h : h1.Perm h2) :
    (heapLeaves h1).Perm (heapLeaves h2) :=
  (h.map Node.leaves).flatten

theorem heapLeaves_cons (n : Node) (t : List Node) :
    heapLeaves (n :: t) = n.leaves ++ heapLeaves t := by
  simp [heapLeaves]

/-- Counting through `List.set`: the new element replaces the old one. -/
theorem count_set_node (x a : Node) : ∀ (l : List Node) (i : Nat),
    i < l.length →
    (l.set i a).count x + (if l.getD i default = x then 1 else 0) =
      l.count x + (if a = x then 1 else 0) := by
  intro l
  induction l with
  | nil => intro i h; simp at h
  | cons y t ih =>
    intro i h
    cases i with
    | zero =>
      simp only [List.set, List.getD_cons_zero, List.count_cons, beq_iff_eq]
      split_ifs <;> omega
    | succ j =>
      simp only [List.set, List.getD_cons_succ, List.count_cons, beq_iff_eq]
      have hj : j < t.length := by simpa using h
      have := ih j hj
      split_ifs at * <;> omega

theorem set_getD_self : ∀ (l : List Node) (i : Nat), i < l.length →
    l.set i (l.getD i default) = l := by
  intro l
  induction l with
  | nil => intro i h; simp at h
  | cons y t ih =>
    intro i h
    cases i with
    | zero => simp
    | succ j =>
      have hj : j < t.length := by simpa using h
      show y :: t.set j ((y :: t).getD (j + 1) default) = y :: t
      rw [List.getD_cons_succ, ih j hj]

theorem siftdownGo_length (startpos : Nat) (newitem : Node) :
    ∀ (fuel : Nat) (heap : List Node) (pos : Nat),
    (siftdownGo startpos newitem fuel heap pos).length = heap.length := by
  intro fuel
  induction fuel with
  | zero => intro heap pos; simp [siftdownGo]
  | succ k ih =>
    intro heap pos
    simp only [siftdownGo]
    split_ifs <;> simp [ih, List.length_set]

theorem siftdownGo_perm (startpos : Nat) (newitem : Node) :
    ∀ (fuel : Nat) (heap : List Node) (pos : Nat), pos < heap.length →
    (siftdownGo startpos newitem fuel heap pos).Perm (heap.set pos newitem) := by
  intro fuel
  induction fuel with
  | zero => intro heap pos _; exact List.Perm.refl _
  | succ k ih =>
    intro heap pos h1
    simp only [siftdownGo]
    split_ifs with h3 h4
    · have hpp : (pos - 1) / 2 < pos := by omega
      have hlen : (pos - 1) / 2 <
          (heap.set pos (heap.getD ((pos - 1) / 2) default)).length := by
        simp only [List.length_set]; omega
      refine (ih _ _ hlen).trans ?_
      rw [List.perm_iff_count]
      intro x
      have e1 := count_set_node x newitem
        (heap.set pos (heap.getD ((pos - 1) / 2) default)) ((pos - 1) / 2) hlen
      have e2 := count_set_node x (heap.getD ((pos - 1) / 2) default) heap pos h1
      have e3 := count_set_node x newitem heap pos h1
      have e4 : (heap.set pos (heap.getD ((pos - 1) / 2) default)).getD
          ((pos - 1) / 2) default = heap.getD ((pos - 1) / 2) default := by
        rw [List.getD_eq_getElem?_getD, List.getD_eq_getElem?_getD,
          List.getElem?_set_ne (by omega : pos ≠ (pos - 1) / 2)]
      rw [e4] at e1
      split_ifs at e1 e2 e3 <;> omega
    · exact List.Perm.refl _
    · exact List.Perm.refl _

theorem siftdownAux_perm (heap : List Node) (s pos : Nat) (item : Node)
    (h : pos < heap.length) :
    (siftdownAux heap s pos item).Perm (heap.set pos item) :=
  siftdownGo_perm s item pos heap pos h

theorem siftdownAux_length (heap : List Node) (s pos : Nat) (item : Node) :
    (siftdownAux heap s pos item).length = heap.length :=
  siftdownGo_length s item pos heap pos

theorem siftupGo_length (startpos : Nat) (newitem : Node) :
    ∀ (fuel : Nat) (heap : List Node) (pos : Nat),
    (siftupGo startpos newitem fuel heap pos).length = heap.length := by
  intro fuel
  induction fuel with
  | zero =>
    intro heap pos
    simp [siftupGo, siftdownAux_length, List.length_set]
  | succ k ih =>
    intro heap pos
    simp only [siftupGo]
    split_ifs <;>
      simp [ih, siftdownAux_length, List.length_set]

theorem siftupGo_perm (startpos : Nat) (newitem : Node) :
    ∀ (fuel : Nat) (heap : List Node) (pos : Nat), pos < heap.length →
    (siftupGo startpos newitem fuel heap pos).Perm (heap.set pos newitem) := by
  intro fuel
  induction fuel with
  | zero =>
    intro heap pos h1
    refine (siftdownAux_perm _ _ _ _ (by simp [List.length_set]; omega)).trans ?_
    rw [List.set_set]
  | succ k ih =>
    intro heap pos h1
    simp only [siftupGo]
    split_ifs with h3 h4
    · have hlen : 2 * pos + 2 <
          (heap.set pos (heap.getD (2 * pos + 2) default)).length := by
        simp only [List.length_set]; omega
      refine (ih _ _ hlen).trans ?_
      rw [List.perm_iff_count]
      intro x
      have e1 := count_set_node x newitem
        (heap.set pos (heap.getD (2 * pos + 2) default)) (2 * pos + 2) hlen
      have e2 := count_set_node x (heap.getD (2 * pos + 2) default) heap pos h1
      have e3 := count_set_node x newitem heap pos h1
      have e4 : (heap.set pos (heap.getD (2 * pos + 2) default)).getD
          (2 * pos + 2) default = heap.getD (2 * pos + 2) default := by
        rw [List.getD_eq_getElem?_getD, List.getD_eq_getElem?_getD,
          List.getElem?_set_ne (by omega : pos ≠ 2 * pos + 2)]
      rw [e4] at e1
      split_ifs at e1 e2 e3 <;> omega
    · have hlen : 2 * pos + 1 <
          (heap.set pos (heap.getD (2 * pos + 1) default)).length := by
        simp only [List.length_set]; omega
      refine (ih _ _ hlen).trans ?_
      rw [List.perm_iff_count]
      intro x
      have e1 := count_set_node x newitem
        (heap.set pos (heap.getD (2 * pos + 1) default)) (2 * pos + 1) hlen
      have e2 := count_set_node x (heap.getD (2 * pos + 1) default) heap pos h1
      have e3 := count_set_node x newitem heap pos h1
      have e4 : (heap.set pos (heap.getD (2 * pos + 1) default)).getD
          (2 * pos + 1) default = heap.getD (2 * pos + 1) default := by
        rw [List.getD_eq_getElem?_getD, List.getD_eq_getElem?_getD,
          List.getElem?_set_ne (by omega : pos ≠ 2 * pos + 1)]
      rw [e4] at e1
      split_ifs at e1 e2 e3 <;> omega
    · refine (siftdownAux_perm _ _ _ _ (by simp [List.length_set]; omega)).trans ?_
      rw [List.set_set]

theorem siftup_perm (heap : List Node) (pos : Nat) (h : pos < heap.length) :
    (siftup heap pos).Perm heap := by
  refine (siftupGo_perm pos (heap.getD pos default) _ heap pos h).trans ?_
  rw [set_getD_self heap pos h]

theorem siftup_length (heap : List Node) (pos : Nat) :
    (siftup heap pos).length = heap.length :=
  siftupGo_length pos (heap.getD pos default) (heap.length - pos) heap pos

theorem heapifyLoop_perm : ∀ (i : Nat) (heap : List Node),
    i ≤ heap.length → (heapifyLoop heap i).Perm heap := by
  intro i
  induction i with
  | zero => intro heap _; exact List.Perm.refl _
  | succ k ih =>
    intro heap h
    have hk : k < heap.length := by omega
    have h2 : k + 1 ≤ (siftup heap k).length := by rw [siftup_length]; omega
    exact ((ih (siftup heap k) (by omega)).trans (siftup_perm heap k hk))

theorem pyHeapify_perm (heap : List Node) : (pyHeapify heap).Perm heap :=
  heapifyLoop_perm (heap.length / 2) heap (Nat.div_le_self _ _)

theorem heappush_perm (heap : List Node) (item : Node) :
    (heappush heap item).Perm (item :: heap) := by
  unfold heappush
  refine (siftdownAux_perm (heap ++ [item]) 0 heap.length item (by simp)).trans
    ?_
  have hset : (heap ++ [item]).set heap.length item = heap ++ [item] := by
    have : (heap ++ [item]).getD heap.length default = item := by
      rw [List.getD_eq_getElem?_getD, List.getElem?_concat_length]
      rfl
    nth_rewrite 2 [← this]
    exact set_getD_self (heap ++ [item]) heap.length
      (by simp only [List.length_append, List.length_cons, List.length_nil]
          omega)
  rw [hset]
  exact List.perm_append_comm

theorem heappush_length (heap : List Node) (item : Node) :
    (heappush heap item).length = heap.length + 1 := by
  unfold heappush
  rw [siftdownAux_length]
  simp

theorem heappop_none_iff (heap : List Node) :
    heappop heap = none ↔ heap = [] := by
  cases heap with
  | nil => simp [heappop]
  | cons x t =>
    simp only [heappop]
    rw [List.getLast?_eq_getLast _ (by simp)]
    constructor
    · intro h
      split_ifs at h
    · intro h
      simp at h

theorem heappop_some (heap : List Node) (r : Node) (h2 : List Node)
    (hp : heappop heap = some (r, h2)) :
    heap.Perm (r :: h2) ∧ h2.length + 1 = heap.length := by
  have hne : heap ≠ [] := by
    intro h
    subst h
    simp [heappop] at hp
  simp only [heappop, List.getLast?_eq_getLast heap hne] at hp
  split_ifs at hp with hemp
  · have h1 : heap.dropLast = [] := List.isEmpty_iff.1 hemp
    injection hp with hp2
    injection hp2 with hr hh
    subst hr
    subst hh
    have hh1 : heap = [heap.getLast hne] := by
      conv_lhs => rw [← List.dropLast_append_getLast hne]
      rw [h1]
      rfl
    refine ⟨?_, ?_⟩
    · conv_lhs => rw [hh1]
    · conv_rhs => rw [hh1]
      rfl
  · injection hp with hp2
    injection hp2 with hr hh
    subst hr
    subst hh
    have hdl : 0 < heap.dropLast.length := by
      rcases hx : heap.dropLast with _ | ⟨a, b⟩
      · rw [hx] at hemp; simp at hemp
      · simp
    have hperm : (siftup (heap.dropLast.set 0 (heap.getLast hne)) 0).Perm
        (heap.dropLast.set 0 (heap.getLast hne)) := by
      apply siftup_perm
      simpa [List.length_set] using hdl
    refine ⟨?_, ?_⟩
    · have hmain : (heap.dropLast.getD 0 default ::
          heap.dropLast.set 0 (heap.getLast hne)).Perm
          (heap.dropLast ++ [heap.getLast hne]) := by
        rw [List.perm_iff_count]
        intro x
        have e2 := count_set_node x (heap.getLast hne) heap.dropLast 0 hdl
        rw [List.count_cons, List.count_append]
        simp only [beq_iff_eq, List.count_singleton', List.count_nil]
        split_ifs at * <;> omega
      have hstart : heap.Perm (heap.dropLast ++ [heap.getLast hne]) := by
        conv_lhs => rw [← List.dropLast_append_getLast hne]
      refine List.Perm.trans hstart ?_
      refine hmain.symm.trans ?_
      exact List.Perm.cons _ hperm.symm
    · rw [siftup_length]
      simp only [List.length_set]
      rw [List.length_dropLast]
      have : 0 < heap.length := List.length_pos.2 hne
      omega

/-! ## `build_huffman_tree`: totality, leaves, internal root -/

theorem mergeLoop_spec : ∀ (fuel : Nat) (heap : List Node), heap ≠ [] →
    heap.length ≤ fuel →
    ∃ root : Node, mergeLoop fuel heap = some root ∧
      root.leaves.Perm (heapLeaves heap) ∧
      (2 ≤ heap.length → root.char? = none) := by
  intro fuel
  induction fuel with
  | zero =>
    intro heap h1 h2
    exact absurd (List.length_eq_zero.1 (Nat.le_zero.1 h2)) h1
  | succ k ih =>
    intro heap h1 h2
    rcases heap with _ | ⟨x, _ | ⟨y, t⟩⟩
    · exact absurd rfl h1
    · exact ⟨x, rfl, by simp [heapLeaves], by intro h; simp at h⟩
    · rcases hp1 : heappop (x :: y :: t) with _ | ⟨left, rest1⟩
      · rw [heappop_none_iff] at hp1; simp at hp1
      obtain ⟨hperm1, hlen1⟩ := heappop_some _ _ _ hp1
      have hrest1 : rest1 ≠ [] := by
        intro h
        rw [h] at hlen1
        simp at hlen1
      rcases hp2 : heappop rest1 with _ | ⟨right, rest2⟩
      · rw [heappop_none_iff] at hp2; exact absurd hp2 hrest1
      obtain ⟨hperm2, hlen2⟩ := heappop_some _ _ _ hp2
      have hstep : mergeLoop (k + 1) (x :: y :: t) =
          mergeLoop k (heappush rest2
            (.internal (left.freq + right.freq) left right)) := by
        simp only [mergeLoop, hp1, hp2]
      have hlenpush : (heappush rest2
          (.internal (left.freq + right.freq) left right)).length =
          rest2.length + 1 := heappush_length _ _
      have hpushne : heappush rest2
          (.internal (left.freq + right.freq) left right) ≠ [] := by
        intro h
        rw [h] at hlenpush
        simp at hlenpush
      have hlenle : (heappush rest2
          (.internal (left.freq + right.freq) left right)).length ≤ k := by
        simp only [List.length_cons] at hlen1 h2
        omega
      obtain ⟨root, hr1, hr2, hr3⟩ := ih _ hpushne hlenle
      refine ⟨root, hstep.trans hr1, ?_, ?_⟩
      · refine hr2.trans ?_
        refine (heapLeaves_perm (heappush_perm _ _)).trans ?_
        rw [heapLeaves_cons]
        show List.Perm ((left.leaves ++ right.leaves) ++ heapLeaves rest2)
          (heapLeaves (x :: y :: t))
        have p1 : (heapLeaves (x :: y :: t)).Perm
            (left.leaves ++ heapLeaves rest1) :=
          (heapLeaves_perm hperm1).trans (by rw [heapLeaves_cons])
        have p2 : (heapLeaves rest1).Perm (right.leaves ++ heapLeaves rest2) :=
          (heapLeaves_perm hperm2).trans (by rw [heapLeaves_cons])
        refine List.Perm.symm ?_
        refine p1.trans ?_
        refine ((p2.append_left left.leaves).trans ?_)
        rw [← List.append_assoc]
      · intro _
        rcases hrest2 : rest2 with _ | ⟨a, b⟩
        · have : heappush ([] : List Node)
              (.internal (left.freq + right.freq) left right) =
              [.internal (left.freq + right.freq) left right] := rfl
          rw [hrest2, this] at hr1
          have : root = .internal (left.freq + right.freq) left right := by
            have h5 : mergeLoop k
                [Node.internal (left.freq + right.freq) left right] =
                some (Node.internal (left.freq + right.freq) left right) := by
              cases k <;> rfl
            rw [h5] at hr1
            injection hr1 with h6
            exact h6.symm
          rw [this]
          rfl
        · apply hr3
          rw [hlenpush, hrest2]
          simp

theorem heapLeaves_map_leaf (ft : List (Symbol × Nat)) :
    heapLeaves (ft.map fun p => Node.leaf p.1 p.2) = ft.map Prod.fst := by
  unfold heapLeaves
  induction ft with
  | nil => rfl
  | cons p rest ihf =>
    simp only [List.map_cons, List.flatten_cons, ihf]
    rfl

/-- `build_huffman_tree` on a non-empty table returns a root whose leaf
symbols are a permutation of the table's keys; with at least two entries the
root is internal. -/
theorem build_huffman_tree_spec (ft : List (Symbol × Nat)) (hne : ft ≠ []) :
    ∃ root : Node, build_huffman_tree ft = some root ∧
      root.leaves.Perm (ft.map Prod.fst) ∧
      (2 ≤ ft.length → root.char? = none) := by
  unfold build_huffman_tree
  have hperm := pyHeapify_perm (ft.map fun p => Node.leaf p.1 p.2)
  have hlen : (pyHeapify (ft.map fun p => Node.leaf p.1 p.2)).length =
      ft.length := by
    rw [hperm.length_eq]
    simp
  have hne2 : pyHeapify (ft.map fun p => Node.leaf p.1 p.2) ≠ [] := by
    intro h
    rw [h] at hlen
    exact hne (List.length_eq_zero.1 hlen.symm)
  obtain ⟨root, h1, h2, h3⟩ := mergeLoop_spec _ _ hne2 le_rfl
  refine ⟨root, h1, ?_, fun hf => h3 (by omega)⟩
  refine h2.trans ?_
  refine (heapLeaves_perm hperm).trans ?_
  rw [heapLeaves_map_leaf]

/-! ## Code table: tree paths, prefix-freedom, lookup -/

/-- The root-to-leaf paths of a tree (`false` = left edge "0"). -/
def treePaths : Node → List (Symbol × List Bool)
  | .leaf c _ => [(c, [])]
  | .internal _ l r =>
    (treePaths l).map (fun p => (p.1, false :: p.2)) ++
      (treePaths r).map (fun p => (p.1, true :: p.2))

theorem generateCodesNode_eq_treePaths : ∀ (t : Node) (pref : List Bool),
    pref ≠ [] →
    generateCodesNode t pref =
      (treePaths t).map (fun p => (p.1, pref ++ p.2)) := by
  intro t
  induction t with
  | leaf c0 f =>
    intro pref hp
    have : pref.isEmpty = false := by
      cases pref with
      | nil => exact absurd rfl hp
      | cons a b => rfl
    simp [generateCodesNode, treePaths, this]
  | internal f l r ihl ihr =>
    intro pref hp
    simp only [generateCodesNode, treePaths, List.map_append, List.map_map]
    rw [ihl (pref ++ [false]) (by simp), ihr (pref ++ [true]) (by simp)]
    congr 1
    · apply List.map_congr_left
      intro p _
      simp [Function.comp, List.append_assoc]
    · apply List.map_congr_left
      intro p _
      simp [Function.comp, List.append_assoc]

/-- On an internal root, `generate_codes` with empty prefix produces exactly
the tree paths. -/
theorem generate_codes_internal (root : Node) (hr : root.char? = none) :
    generate_codes (some root) [] = treePaths root := by
  cases root with
  | leaf c f => simp [Node.char?] at hr
  | internal f l r =>
    show generateCodesNode (.internal f l r) [] = _
    simp only [generateCodesNode, treePaths, List.nil_append]
    rw [generateCodesNode_eq_treePaths l [false] (by simp),
        generateCodesNode_eq_treePaths r [true] (by simp)]
    congr 1

theorem generateCodesNode_fst : ∀ (t : Node) (pref : List Bool),
    (generateCodesNode t pref).map Prod.fst = t.leaves := by
  intro t
  induction t with
  | leaf c0 f => intro pref; rfl
  | internal f l r ihl ihr =>
    intro pref
    simp only [generateCodesNode, List.map_append, ihl, ihr, Node.leaves]

theorem treePaths_fst (t : Node) : (treePaths t).map Prod.fst = t.leaves := by
  induction t with
  | leaf c0 f => rfl
  | internal f l r ihl ihr =>
    simp only [treePaths, Node.leaves, List.map_append, List.map_map]
    rw [← ihl, ← ihr]
    congr 1

theorem treePaths_path_ne_nil (t : Node) (ht : t.char? = none) (c : Symbol)
    (p : List Bool) (h : (c, p) ∈ treePaths t) : p ≠ [] := by
  cases t with
  | leaf c0 f => simp [Node.char?] at ht
  | internal f l r =>
    simp only [treePaths, List.mem_append, List.mem_map] at h
    rcases h with ⟨q, _, hq⟩ | ⟨q, _, hq⟩ <;>
      (injection hq with h1 h2; rw [← h2]; simp)

/-- Distinct tree paths are never prefixes of one another: a prefix relation
between two leaf paths forces them equal. -/
theorem treePaths_isPrefix_eq : ∀ (t : Node) (c1 c2 : Symbol)
    (p1 p2 : List Bool), (c1, p1) ∈ treePaths t → (c2, p2) ∈ treePaths t →
    p1 <+: p2 → p1 = p2 := by
  intro t
  induction t with
  | leaf c0 f =>
    intro c1 c2 p1 p2 h1 h2 _
    simp only [treePaths, List.mem_singleton] at h1 h2
    injection h1 with _ e1
    injection h2 with _ e2
    rw [e1, e2]
  | internal f l r ihl ihr =>
    intro c1 c2 p1 p2 h1 h2 hpre
    simp only [treePaths, List.mem_append, List.mem_map] at h1 h2
    rcases h1 with ⟨⟨d1, q1⟩, hm1, he1⟩ | ⟨⟨d1, q1⟩, hm1, he1⟩ <;>
      rcases h2 with ⟨⟨d2, q2⟩, hm2, he2⟩ | ⟨⟨d2, q2⟩, hm2, he2⟩ <;>
      (injection he1 with he1a he1b; injection he2 with he2a he2b) <;>
      rw [← he1b, ← he2b] at hpre ⊢
    · rw [List.cons_prefix_cons] at hpre
      rw [ihl d1 d2 q1 q2 hm1 hm2 hpre.2]
    · rw [List.cons_prefix_cons] at hpre
      exact absurd hpre.1 (by simp)
    · rw [List.cons_prefix_cons] at hpre
      exact absurd hpre.1 (by simp)
    · rw [List.cons_prefix_cons] at hpre
      rw [ihr d1 d2 q1 q2 hm1 hm2 hpre.2]

/-- A path determines its leaf: two entries with the same path carry the same
symbol. -/
theorem treePaths_path_inj : ∀ (t : Node) (c1 c2 : Symbol) (p : List Bool),
    (c1, p) ∈ treePaths t → (c2, p) ∈ treePaths t → c1 = c2 := by
  intro t
  induction t with
  | leaf c0 f =>
    intro c1 c2 p h1 h2
    simp only [treePaths, List.mem_singleton] at h1 h2
    injection h1 with e1 _
    injection h2 with e2 _
    rw [e1, e2]
  | internal f l r ihl ihr =>
    intro c1 c2 p h1 h2
    simp only [treePaths, List.mem_append, List.mem_map] at h1 h2
    rcases h1 with ⟨⟨d1, q1⟩, hm1, he1⟩ | ⟨⟨d1, q1⟩, hm1, he1⟩ <;>
      rcases h2 with ⟨⟨d2, q2⟩, hm2, he2⟩ | ⟨⟨d2, q2⟩, hm2, he2⟩ <;>
      (injection he1 with he1a he1b; injection he2 with he2a he2b)
    · rw [← he2b] at he1b
      injection he1b with hb hq
      exact he1a.symm.trans
        ((ihl d1 d2 q1 hm1
          (by rw [show q1 = q2 from hq]; exact hm2)).trans he2a)
    · rw [← he2b] at he1b
      injection he1b with hb hq
      exact absurd hb (by simp)
    · rw [← he2b] at he1b
      injection he1b with hb hq
      exact absurd hb (by simp)
    · rw [← he2b] at he1b
      injection he1b with hb hq
      exact he1a.symm.trans
        ((ihr d1 d2 q1 hm1
          (by rw [show q1 = q2 from hq]; exact hm2)).trans he2a)

theorem lookupCode_mem : ∀ (l : List (Symbol × List Bool)) (s : Symbol)
    (c : List Bool), lookupCode l s = some c → (s, c) ∈ l := by
  intro l
  induction l with
  | nil => intro s c h; simp [lookupCode] at h
  | cons p rest ih =>
    intro s c h
    obtain ⟨t, c0⟩ := p
    simp only [lookupCode] at h
    rcases hr : lookupCode rest s with _ | c2
    · rw [hr] at h
      split_ifs at h with ht
      · injection h with h2
        subst ht
        subst h2
        simp
    · rw [hr] at h
      injection h with h2
      subst h2
      exact List.mem_cons_of_mem _ (ih s c2 hr)

theorem lookupCode_isSome_iff : ∀ (l : List (Symbol × List Bool)) (s : Symbol),
    (lookupCode l s).isSome ↔ s ∈ l.map Prod.fst := by
  intro l
  induction l with
  | nil => intro s; simp [lookupCode]
  | cons p rest ih =>
    intro s
    obtain ⟨t, c0⟩ := p
    simp only [lookupCode, List.map_cons, List.mem_cons]
    rcases hr : lookupCode rest s with _ | c2
    · have : s ∉ rest.map Prod.fst := by
        rw [← ih s, hr]
        simp
      simp only [Option.isSome_some, Option.isSome_none]
      split_ifs with ht
      · simp [ht.symm]
      · constructor
        · intro h; simp at h
        · intro h
          rcases h with h | h
          · exact absurd h.symm ht
          · exact absurd h this
    · have : s ∈ rest.map Prod.fst := by
        rw [← ih s, hr]
        rfl
      simp [this]

/-! ## C8: prefix-freedom of the generated CodeTable -/

/-- **C8**: for every non-empty frequency table, the code table produced by
`build_huffman_tree` + `generate_codes` is prefix-free: codes looked up for
two distinct symbols are never in the prefix relation.  (For a single-symbol
table both lookups return the same symbol's code, so distinctness is
contradictory; for two or more symbols the codes are distinct root-to-leaf
paths of the tree, and a prefix relation between leaf paths forces both path
equality and leaf equality.) -/
theorem generate_codes_prefixFree (ft : List (Symbol × Nat)) (hne : ft ≠ [])
    (s1 s2 : Symbol) (c1 c2 : List Bool)
    (h1 : lookupCode (generate_codes (build_huffman_tree ft) []) s1 = some c1)
    (h2 : lookupCode (generate_codes (build_huffman_tree ft) []) s2 = some c2)
    (hs : s1 ≠ s2) : ¬ c1 <+: c2 := by
  obtain ⟨root, hb, _, _⟩ := build_huffman_tree_spec ft hne
  rw [hb] at h1 h2
  cases hroot : root with
  | leaf c0 f =>
    rw [hroot] at h1 h2
    have e1 := lookupCode_mem _ _ _ h1
    have e2 := lookupCode_mem _ _ _ h2
    have hs1 : s1 = c0 := by
      have h3 : (s1, c1) ∈ [(c0, [false])] := e1
      simp at h3
      exact h3.1
    have hs2 : s2 = c0 := by
      have h3 : (s2, c2) ∈ [(c0, [false])] := e2
      simp at h3
      exact h3.1
    exact absurd (hs1.trans hs2.symm) hs
  | internal f l r =>
    rw [hroot] at h1 h2
    rw [generate_codes_internal _ (by rw [Node.char?])] at h1 h2
    intro hpre
    have e1 := lookupCode_mem _ _ _ h1
    have e2 := lookupCode_mem _ _ _ h2
    have hpq := treePaths_isPrefix_eq _ s1 s2 c1 c2 e1 e2 hpre
    subst hpq
    exact hs (treePaths_path_inj _ s1 s2 c1 e1 e2)

/-- **C8 witness**: table `{a:1, b:1, c:2}` — `a ↦ 11` and `c ↦ 0` are not in
the prefix relation. -/
theorem generate_codes_prefixFree_witness :
    ([(['a'], 1), (['b'], 1), (['c'], 2)] : List (Symbol × Nat)) ≠ [] ∧
    ¬ ([true, true] : List Bool) <+: [false] :=
  ⟨by decide,
    generate_codes_prefixFree [(['a'], 1), (['b'], 1), (['c'], 2)] (by decide)
      ['a'] ['c'] [true, true] [false] (by decide) (by decide) (by decide)⟩

/-! ## Decoder correctness on well-formed bit streams -/

/-- The bit stream the encoder produces for a token list: the concatenation
of each token's code from the code table. -/
def encBits (codes : List (Symbol × List Bool)) (ts : List Symbol) :
    List Bool :=
  ts.flatMap fun s => (lookupCode codes s).getD []

/-- Walking the decoder along a leaf's tree path emits that leaf's symbol and
resets to the root. -/
theorem decodeLoop_path (root : Node) : ∀ (t : Node) (c : Symbol)
    (p rest : List Bool) (acc : List Symbol),
    (c, p) ∈ treePaths t → t.char? = none →
    decodeLoop root (some t) (p ++ rest) acc =
      decodeLoop root (some root) rest (c :: acc) := by
  intro t
  induction t with
  | leaf c0 f =>
    intro c p rest acc hmem ht
    simp [Node.char?] at ht
  | internal f l r ihl ihr =>
    intro c p rest acc hmem ht
    simp only [treePaths, List.mem_append, List.mem_map] at hmem
    rcases hmem with ⟨⟨d, q⟩, hm, he⟩ | ⟨⟨d, q⟩, hm, he⟩
    · injection he with he1 he2
      rw [← he2, ← he1]
      cases l with
      | leaf cl fl =>
        have hdq : d = cl ∧ q = [] := by
          simp only [treePaths, List.mem_singleton] at hm
          exact ⟨congrArg Prod.fst hm, congrArg Prod.snd hm⟩
        rw [hdq.1, hdq.2]
        simp [decodeLoop, Node.left?, Node.char?, List.cons_append]
      | internal fl ll rl =>
        have hstep : decodeLoop root
            (some (Node.internal f (Node.internal fl ll rl) r))
            ((false :: q) ++ rest) acc =
            decodeLoop root (some (Node.internal fl ll rl)) (q ++ rest) acc := by
          simp [decodeLoop, Node.left?, Node.char?, List.cons_append]
        rw [hstep, ihl d q rest acc hm rfl]
    · injection he with he1 he2
      rw [← he2, ← he1]
      cases r with
      | leaf cl fl =>
        have hdq : d = cl ∧ q = [] := by
          simp only [treePaths, List.mem_singleton] at hm
          exact ⟨congrArg Prod.fst hm, congrArg Prod.snd hm⟩
        rw [hdq.1, hdq.2]
        simp [decodeLoop, Node.right?, Node.char?, List.cons_append]
      | internal fl ll rl =>
        have hstep : decodeLoop root
            (some (Node.internal f l (Node.internal fl ll rl)))
            ((true :: q) ++ rest) acc =
            decodeLoop root (some (Node.internal fl ll rl)) (q ++ rest) acc := by
          simp [decodeLoop, Node.right?, Node.char?, List.cons_append]
        rw [hstep, ihr d q rest acc hm rfl]

/-- The decode loop inverts the encoder over a whole token list. -/
theorem decodeLoop_encode (root : Node) (hroot : root.char? = none)
    (codes : List (Symbol × List Bool))
    (hcodes : ∀ s c, lookupCode codes s = some c → (s, c) ∈ treePaths root) :
    ∀ (ts : List Symbol) (acc : List Symbol),
    (∀ s ∈ ts, (lookupCode codes s).isSome) →
    decodeLoop root (some root) (encBits codes ts) acc =
      some (acc.reverse ++ ts) := by
  intro ts
  induction ts with
  | nil =>
    intro acc _
    simp [encBits, decodeLoop]
  | cons t ts2 ih =>
    intro acc hall
    have h1 := hall t (by simp)
    rcases hc : lookupCode codes t with _ | c
    · rw [hc] at h1; simp at h1
    · have hmem := hcodes t c hc
      have hstep : encBits codes (t :: ts2) = c ++ encBits codes ts2 := by
        simp [encBits, hc]
      rw [hstep,
        decodeLoop_path root root t c (encBits codes ts2) acc hmem hroot,
        ih (t :: acc) (fun x hx => hall x (List.mem_cons_of_mem _ hx))]
      simp

/-- `decode_with_tree` applied to the concatenated codes of `ts` (tree built
from a table with at least two distinct symbols, every token in the table)
returns exactly `ts`: every symbol, in order, no leftover unresolved bits. -/
theorem decode_encBits (ft : List (Symbol × Nat)) (h2 : 2 ≤ ft.length)
    (ts : List Symbol) (hts : ∀ s ∈ ts, s ∈ ft.map Prod.fst) :
    decode_with_tree (build_huffman_tree ft)
      (encBits (generate_codes (build_huffman_tree ft) []) ts) = some ts := by
  have hne : ft ≠ [] := by
    intro h
    rw [h] at h2
    simp at h2
  obtain ⟨root, hb, hperm, hint⟩ := build_huffman_tree_spec ft hne
  have hroot : root.char? = none := hint h2
  rw [hb, generate_codes_internal root hroot]
  have hall : ∀ s ∈ ts, (lookupCode (treePaths root) s).isSome := by
    intro s hs
    rw [lookupCode_isSome_iff, treePaths_fst]
    exact hperm.mem_iff.2 (hts s hs)
  rcases hts0 : ts with _ | ⟨t, ts2⟩
  · simp [encBits, decode_with_tree]
  · rw [← hts0]
    have hbitsne : encBits (treePaths root) ts ≠ [] := by
      rw [hts0]
      have h1 := hall t (by rw [hts0]; simp)
      rcases hc : lookupCode (treePaths root) t with _ | c
      · rw [hc] at h1; simp at h1
      · have hmem := lookupCode_mem _ _ _ hc
        have hnenil := treePaths_path_ne_nil root hroot t c hmem
        simp only [encBits, List.flatMap_cons, hc, Option.getD_some, ne_eq,
          List.append_eq_nil]
        intro hx
        exact hnenil hx.1
    show (if (encBits (treePaths root) ts).isEmpty then some [] else
      decodeLoop root (some root) (encBits (treePaths root) ts) []) = some ts
    rw [if_neg (by simpa [List.isEmpty_iff] using hbitsne)]
    rw [decodeLoop_encode root hroot (treePaths root)
      (fun s c h => lookupCode_mem _ s c h) ts [] hall]
    simp

/-! ## C3 (amended): exactness on well-formed chunks, silence on mismatch -/

/-- **C3 (amended)**: for a table with at least two distinct symbols, on a
well-formed chunk — one whose padding-stripped bits are the concatenation of
the codes of a token list `ts` of the declared `token_count` —
`decode_with_tree` emits exactly `token_count` symbols with no leftover
unresolved bits (it returns exactly `ts`).  The two-symbol restriction is
necessary: on a one-symbol table even the well-formed one-token chunk (bits
"0", `token_count` 1) decodes to **zero** symbols (second conjunct).  And on
a mismatched chunk no `DecodeAlignmentError` is raised — no such error exists
in the source: leftover bits are silently dropped and the truncated (possibly
empty) output is returned normally (`decode_mismatch_returns_silently`). -/
theorem decode_wellformed_emits_exact_count (ft : List (Symbol × Nat))
    (h2 : 2 ≤ ft.length) (ts : List Symbol)
    (hts : ∀ s ∈ ts, s ∈ ft.map Prod.fst) (token_count : Nat)
    (hcount : token_count = ts.length) :
    (∃ out, decode_with_tree (build_huffman_tree ft)
        (encBits (generate_codes (build_huffman_tree ft) []) ts) = some out ∧
      out.length = token_count) ∧
    ∀ (s : Symbol) (k : Nat),
      decode_with_tree (build_huffman_tree [(s, k)])
        (encBits (generate_codes (build_huffman_tree [(s, k)]) []) [s]) =
        some [] := by
  refine ⟨⟨ts, decode_encBits ft h2 ts hts, hcount.symm⟩, ?_⟩
  intro s k
  have hb : build_huffman_tree [(s, k)] = some (.leaf s k) := by
    simp [build_huffman_tree, pyHeapify, heapifyLoop, mergeLoop]
  rw [hb]
  have he : encBits (generate_codes (some (Node.leaf s k)) []) [s] =
      [false] := by
    show (lookupCode [(s, [false])] s).getD [] ++ [] = [false]
    simp [lookupCode]
  rw [he]
  rfl

/-- **C3 witness**: table `{a:1, b:1, c:2}`, tokens `[a, c]`, declared
token_count 2. -/
theorem decode_wellformed_emits_exact_count_witness :
    2 ≤ ([(['a'], 1), (['b'], 1), (['c'], 2)] : List (Symbol × Nat)).length ∧
    (2 : Nat) = ([['a'], ['c']] : List Symbol).length ∧
    ((∃ out,
      decode_with_tree (build_huffman_tree [(['a'], 1), (['b'], 1), (['c'], 2)])
          (encBits
            (generate_codes
              (build_huffman_tree [(['a'], 1), (['b'], 1), (['c'], 2)]) [])
            [['a'], ['c']]) = some out ∧
        out.length = 2) ∧
     ∀ (s : Symbol) (k : Nat),
       decode_with_tree (build_huffman_tree [(s, k)])
         (encBits (generate_codes (build_huffman_tree [(s, k)]) []) [s]) =
         some []) :=
  ⟨by decide, by decide,
    decode_wellformed_emits_exact_count [(['a'], 1), (['b'], 1), (['c'], 2)]
      (by decide) [['a'], ['c']] (by decide) 2 (by decide)⟩

/-! ## C2 (amended): the code-table domain is order-independent -/

/-- **C2 (amended)**: tie-breaking between equal-frequency nodes follows the
heap layout derived from the table's iteration order, not a canonical
order-independent rule, so two tables equal as maps but iterated differently
can produce different trees and CodeTables (`codes_depend_on_table_order`).
What holds for **every** table regardless of iteration order: the produced
CodeTable assigns codes to exactly the table's symbols — its domain is a
permutation of the table's keys. -/
theorem code_table_keys_order_independent (ft : List (Symbol × Nat)) :
    ((generate_codes (build_huffman_tree ft) []).map Prod.fst).Perm
      (ft.map Prod.fst) := by
  rcases hft : ft with _ | ⟨p, rest⟩
  · exact List.Perm.nil
  · have hne : p :: rest ≠ [] := by simp
    obtain ⟨root, hb, hperm, _⟩ := build_huffman_tree_spec (p :: rest) hne
    rw [hb]
    show ((generateCodesNode root []).map Prod.fst).Perm
      ((p :: rest).map Prod.fst)
    rw [generateCodesNode_fst]
    exact hperm

/-- **C2 witness**: the two-symbol table `{a:1, b:1}`. -/
theorem code_table_keys_order_independent_witness :
    ((generate_codes (build_huffman_tree [(['a'], 1), (['b'], 1)]) []).map
      Prod.fst).Perm [['a'], ['b']] :=
  code_table_keys_order_independent [(['a'], 1), (['b'], 1)]

/-! ## Encoder-pass helper lemmas -/

theorem flatMap_natToBits8_length (bs : List Nat) :
    (bs.flatMap natToBits8).length = 8 * bs.length := by
  induction bs with
  | nil => rfl
  | cons b rest ih =>
    simp only [List.flatMap_cons, List.length_append, ih, natToBits8]
    simp [List.length_cons]
    omega

/-- Flushing a buffer whose length is a multiple of 8 consumes it fully. -/
theorem flushBytes_total (buf : List Bool) (h : buf.length % 8 = 0) :
    (flushBytes buf).1.flatMap natToBits8 = buf ∧ (flushBytes buf).2 = [] := by
  have hs := flushBytes_spec buf
  have hl := flatMap_natToBits8_length (flushBytes buf).1
  have hlen : (flushBytes buf).2.length = 0 := by
    have hc := congrArg List.length hs.1
    rw [List.length_append, hl] at hc
    omega
  have h2 : (flushBytes buf).2 = [] := List.length_eq_zero.1 hlen
  refine ⟨?_, h2⟩
  have := hs.1
  rw [h2, List.append_nil] at this
  exact this

theorem padBuf_eq (buf : List Bool) (p : Nat) :
    (if p = 0 then buf else buf ++ List.replicate p false) =
      buf ++ List.replicate p false := by
  split_ifs with h
  · subst h; simp
  · rfl

theorem padded_mod (l : Nat) : (l + (8 - l % 8) % 8) % 8 = 0 := by omega

/-- Stripping the padding recovers the data bits. -/
theorem unpack_bits_padded (bytes : List Nat) (bits : List Bool)
    (padding : Nat)
    (h : bytes.flatMap natToBits8 = bits ++ List.replicate padding false) :
    unpack_bits bytes padding = bits := by
  unfold unpack_bits
  rw [h]
  split_ifs with h0
  · subst h0; simp
  · show List.take ((bits ++ List.replicate padding false).length - padding)
      (bits ++ List.replicate padding false) = bits
    rw [List.length_append, List.length_replicate]
    have he : bits.length + padding - padding = bits.length := by omega
    rw [he, List.take_append_of_le_length le_rfl, List.take_length]

theorem drop_take_region (a b : List Nat) (o n : Nat) (ho : o ≤ a.length)
    (h : o + n ≤ a.length) :
    ((a ++ b).drop o).take n = (a.drop o).take n := by
  rw [List.drop_append_of_le_length ho,
    List.take_append_of_le_length (by simp [List.length_drop]; omega)]

theorem encBits_append (codes : List (Symbol × List Bool))
    (ts1 ts2 : List Symbol) :
    encBits codes (ts1 ++ ts2) = encBits codes ts1 ++ encBits codes ts2 := by
  simp [encBits]

theorem encBits_eq_nil_imp (codes : List (Symbol × List Bool))
    (ts : List Symbol)
    (hne : ∀ s c, lookupCode codes s = some c → c ≠ [])
    (hsome : ∀ s ∈ ts, (lookupCode codes s).isSome)
    (h : encBits codes ts = []) : ts = [] := by
  cases ts with
  | nil => rfl
  | cons t ts2 =>
    have h1 := hsome t (by simp)
    rcases hc : lookupCode codes t with _ | c
    · rw [hc] at h1; simp at h1
    · simp only [encBits, List.flatMap_cons, hc, Option.getD_some,
        List.append_eq_nil] at h
      exact absurd h.1 (hne t c hc)

theorem mapM_of_forall₂ (f : ChunkMeta → Option (List Symbol)) :
    ∀ (chunks : List ChunkMeta) (groups : List (List Symbol)),
    List.Forall₂ (fun ch g => f ch = some g) chunks groups →
    chunks.mapM f = some groups := by
  intro chunks groups h
  induction h with
  | nil => rfl
  | cons h1 _ ih =>
    rename_i a b l1 l2 _
    rw [List.mapM_cons, h1, ih]
    rfl

/-! ## The encoding pass, fully specified -/

/-- Starting from a state whose current chunk region holds exactly the codes
of `r`, the encoding loop plus EOF block succeeds and appends chunks whose
padding-stripped byte regions hold exactly the codes of consecutive groups
partitioning `r ++ ts`. -/
theorem encodeAll_spec (codes : List (Symbol × List Bool)) (mode : Mode)
    (target : Nat)
    (hcodesne : ∀ s c, lookupCode codes s = some c → c ≠ []) :
    ∀ (ts : List Symbol) (st : EncState) (r : List Symbol),
    st.payload.length = st.chunk_start_offset + st.bytes_written_chunk →
    st.bit_buffer.length < 8 →
    ((st.payload.drop st.chunk_start_offset).flatMap natToBits8) ++
        st.bit_buffer = encBits codes r →
    (∀ s ∈ r, (lookupCode codes s).isSome) →
    (∀ s ∈ ts, (lookupCode codes s).isSome) →
    ∃ (stF : EncState) (app : List Nat) (newChunks : List ChunkMeta)
      (groups : List (List Symbol)),
      encodeAll codes mode target st ts = some stF ∧
      stF.payload = st.payload ++ app ∧
      stF.chunks = st.chunks ++ newChunks ∧
      groups.flatten = r ++ ts ∧
      List.Forall₂ (fun ch g =>
        st.chunk_start_offset ≤ ch.offset ∧
        ch.offset + ch.length ≤ stF.payload.length ∧
        unpack_bits ((stF.payload.drop ch.offset).take ch.length) ch.padding =
          encBits codes g) newChunks groups := by
  intro ts
  induction ts with
  | nil =>
    intro st r hlen hbb hbits hr _
    by_cases hcond : st.bit_buffer ≠ [] ∨ 0 < st.bytes_written_chunk ∨
        0 < st.tokens_in_chunk
    · -- EOF: pad, flush, record the final chunk
      have hpadbuf :=
        padBuf_eq st.bit_buffer ((8 - st.bit_buffer.length % 8) % 8)
      have htot := flushBytes_total
        (st.bit_buffer ++
          List.replicate ((8 - st.bit_buffer.length % 8) % 8) false)
        (by rw [List.length_append, List.length_replicate]
            exact padded_mod _)
      have hwr : 0 < st.bytes_written_chunk +
          (flushBytes (st.bit_buffer ++
            List.replicate ((8 - st.bit_buffer.length % 8) % 8) false)).1.length
          ∨ 0 < st.tokens_in_chunk := by
        rcases hcond with h | h | h
        · left
          have hfne : (flushBytes (st.bit_buffer ++
              List.replicate ((8 - st.bit_buffer.length % 8) % 8) false)).1 ≠
              [] := by
            intro hnil
            have h2 := htot.1
            rw [hnil] at h2
            simp only [List.flatMap_nil] at h2
            have h3 : st.bit_buffer = [] := by
              have := congrArg List.length h2
              simp only [List.length_nil, List.length_append,
                List.length_replicate] at this
              exact List.length_eq_zero.1 (by omega)
            exact h h3
          have := List.length_pos.2 hfne
          omega
        · left; omega
        · right; exact h
      have hfin : finalizeEnc st = { st with
          bit_buffer := (flushBytes (st.bit_buffer ++
            List.replicate ((8 - st.bit_buffer.length % 8) % 8) false)).2
          payload := st.payload ++ (flushBytes (st.bit_buffer ++
            List.replicate ((8 - st.bit_buffer.length % 8) % 8) false)).1
          bytes_written_chunk := st.bytes_written_chunk +
            (flushBytes (st.bit_buffer ++
              List.replicate ((8 - st.bit_buffer.length % 8) % 8) false)).1.length
          chunks := st.chunks ++ [⟨st.chunk_index, st.chunk_start_offset,
            st.bytes_written_chunk + (flushBytes (st.bit_buffer ++
              List.replicate ((8 - st.bit_buffer.length % 8) % 8) false)).1.length,
            (8 - st.bit_buffer.length % 8) % 8, st.tokens_in_chunk⟩] } := by
        simp only [finalizeEnc]
        rw [if_pos hcond, hpadbuf, if_pos hwr]
      refine ⟨finalizeEnc st, (flushBytes (st.bit_buffer ++
          List.replicate ((8 - st.bit_buffer.length % 8) % 8) false)).1,
        [⟨st.chunk_index, st.chunk_start_offset,
          st.bytes_written_chunk + (flushBytes (st.bit_buffer ++
            List.replicate ((8 - st.bit_buffer.length % 8) % 8) false)).1.length,
          (8 - st.bit_buffer.length % 8) % 8, st.tokens_in_chunk⟩],
        [r], rfl, ?_, ?_, ?_, ?_⟩
      · rw [hfin]
      · rw [hfin]
      · simp
      · refine List.Forall₂.cons ⟨le_rfl, ?_, ?_⟩ List.Forall₂.nil
        · rw [hfin]
          simp only [List.length_append]
          omega
        · rw [hfin]
          have hdrop : ((st.payload ++ (flushBytes (st.bit_buffer ++
              List.replicate ((8 - st.bit_buffer.length % 8) % 8) false)).1).drop
              st.chunk_start_offset) =
              (st.payload.drop st.chunk_start_offset) ++
                (flushBytes (st.bit_buffer ++
                  List.replicate ((8 - st.bit_buffer.length % 8) % 8) false)).1 :=
            List.drop_append_of_le_length (by omega)
          show unpack_bits _ _ = _
          rw [hdrop]
          have hlen2 : st.bytes_written_chunk + (flushBytes (st.bit_buffer ++
              List.replicate ((8 - st.bit_buffer.length % 8) % 8) false)).1.length =
              ((st.payload.drop st.chunk_start_offset) ++
                (flushBytes (st.bit_buffer ++
                  List.replicate ((8 - st.bit_buffer.length % 8) % 8)
                  false)).1).length := by
            simp only [List.length_append, List.length_drop]
            omega
          rw [hlen2, List.take_length]
          apply unpack_bits_padded
          rw [List.flatMap_append, htot.1, ← List.append_assoc, hbits]
    · -- nothing pending: no final chunk
      push_neg at hcond
      obtain ⟨hbbnil, hbwc, htic⟩ := hcond
      have hfin : finalizeEnc st = st := by
        unfold finalizeEnc
        rw [if_neg]
        push_neg
        exact ⟨hbbnil, hbwc, htic⟩
      have hdrop : st.payload.drop st.chunk_start_offset = [] := by
        apply List.drop_eq_nil_of_le
        omega
      have hrnil : r = [] := by
        apply encBits_eq_nil_imp codes r hcodesne hr
        rw [← hbits, hdrop, hbbnil]
        rfl
      subst hrnil
      exact ⟨st, [], [], [],
        by rw [show encodeAll codes mode target st [] =
          some (finalizeEnc st) from rfl, hfin],
        by simp, by simp, rfl, List.Forall₂.nil⟩
  | cons t ts2 ih =>
    intro st r hlen hbb hbits hr hts
    have h1 := hts t (by simp)
    rcases hc : lookupCode codes t with _ | code
    · rw [hc] at h1; simp at h1
    have hflspec := flushBytes_spec (st.bit_buffer ++ code)
    have hbits1 : (((st.payload ++
        (flushBytes (st.bit_buffer ++ code)).1).drop
          st.chunk_start_offset).flatMap natToBits8) ++
        (flushBytes (st.bit_buffer ++ code)).2 =
        encBits codes (r ++ [t]) := by
      rw [List.drop_append_of_le_length (by omega), List.flatMap_append,
        List.append_assoc, hflspec.1, ← List.append_assoc, hbits,
        encBits_append]
      simp [encBits, hc]
    have hr1 : ∀ s ∈ r ++ [t], (lookupCode codes s).isSome := by
      intro s hs
      rcases List.mem_append.1 hs with h | h
      · exact hr s h
      · simp only [List.mem_singleton] at h
        subst h
        exact h1
    have hstep : encodeAll codes mode target st (t :: ts2) =
        match encodeStep codes mode target st t with
        | none => none
        | some st2 => encodeAll codes mode target st2 ts2 := rfl
    rw [hstep]
    simp only [encodeStep, hc]
    by_cases hclose : target ≤ st.bytes_written_chunk +
        (flushBytes (st.bit_buffer ++ code)).1.length ∧
        (mode = .char ∨ t ∈ sentence_boundaries)
    · rw [if_pos hclose]
      by_cases hpad : (8 - (flushBytes (st.bit_buffer ++ code)).2.length % 8)
          % 8 = 0
      · -- close with no padding byte: the residual buffer is empty
        have hresnil : (flushBytes (st.bit_buffer ++ code)).2 = [] := by
          have := hflspec.2
          exact List.length_eq_zero.1 (by omega)
        rw [if_pos hpad]
        have hbits2 : (((st.payload ++ (flushBytes (st.bit_buffer ++ code)).1)
            ++ []).drop ((st.payload ++
              (flushBytes (st.bit_buffer ++ code)).1) ++ ([] : List Nat)).length).flatMap
            natToBits8 ++ ([] : List Bool) = encBits codes [] := by
          rw [List.drop_length]
          rfl
        obtain ⟨stF, app2, nc2, gs2, hEq, hPay, hChunks, hFlat, hFor⟩ :=
          ih { bit_buffer := []
               payload := (st.payload ++ (flushBytes (st.bit_buffer ++ code)).1)
                 ++ []
               chunk_start_offset := ((st.payload ++
                 (flushBytes (st.bit_buffer ++ code)).1) ++ ([] : List Nat)).length
               bytes_written_chunk := 0
               tokens_in_chunk := 0
               total_tokens_seen := st.total_tokens_seen + 1
               chunk_index := st.chunk_index + 1
               chunks := st.chunks ++ [⟨st.chunk_index, st.chunk_start_offset,
                 st.bytes_written_chunk +
                   (flushBytes (st.bit_buffer ++ code)).1.length + 0,
                 (8 - (flushBytes (st.bit_buffer ++ code)).2.length % 8) % 8,
                 st.tokens_in_chunk + 1⟩] } []
            (by simp) (by simp) hbits2 (by intro s h; simp at h)
            (fun s h => hts s (List.mem_cons_of_mem _ h))
        refine ⟨stF, (flushBytes (st.bit_buffer ++ code)).1 ++ app2,
          ⟨st.chunk_index, st.chunk_start_offset,
            st.bytes_written_chunk +
              (flushBytes (st.bit_buffer ++ code)).1.length + 0,
            (8 - (flushBytes (st.bit_buffer ++ code)).2.length % 8) % 8,
            st.tokens_in_chunk + 1⟩ :: nc2,
          (r ++ [t]) :: gs2, ?_, ?_, ?_, ?_, ?_⟩
        · exact hEq
        · rw [hPay]
          simp
        · rw [hChunks]
          simp
        · rw [List.flatten_cons, hFlat]
          simp
        · refine List.Forall₂.cons ⟨le_rfl, ?_, ?_⟩ ?_
          · rw [hPay]
            simp only [List.append_nil, List.length_append]
            omega
          · rw [hPay, List.append_nil]
            have hregion : ((((st.payload ++
                (flushBytes (st.bit_buffer ++ code)).1)) ++ app2).drop
                  st.chunk_start_offset).take
                (st.bytes_written_chunk +
                  (flushBytes (st.bit_buffer ++ code)).1.length + 0) =
                (((st.payload ++ (flushBytes (st.bit_buffer ++ code)).1)).drop
                  st.chunk_start_offset).take
                (st.bytes_written_chunk +
                  (flushBytes (st.bit_buffer ++ code)).1.length + 0) :=
              drop_take_region _ _ _ _
                (by simp only [List.length_append]; omega)
                (by simp only [List.length_append]; omega)
            rw [hregion]
            have htake : (((st.payload ++
                (flushBytes (st.bit_buffer ++ code)).1)).drop
                  st.chunk_start_offset).take
                (st.bytes_written_chunk +
                  (flushBytes (st.bit_buffer ++ code)).1.length + 0) =
                ((st.payload ++ (flushBytes (st.bit_buffer ++ code)).1)).drop
                  st.chunk_start_offset :=
              List.take_of_length_le
                (by simp only [List.length_drop, List.length_append]; omega)
            rw [htake]
            apply unpack_bits_padded
            have h2 := hbits1
            rw [hresnil, List.append_nil] at h2
            rw [h2, hpad]
            simp
          · refine hFor.imp ?_
            intro ch g hcg
            refine ⟨le_trans ?_ hcg.1, hcg.2.1, hcg.2.2⟩
            show st.chunk_start_offset ≤ ((st.payload ++
              (flushBytes (st.bit_buffer ++ code)).1) ++ ([] : List Nat)).length
            simp only [List.length_append, List.length_nil]
            omega
      · -- close with a padding byte: pad the residue to a whole byte and flush
        rw [if_neg hpad, if_neg hpad]
        set F1 := (flushBytes (st.bit_buffer ++ code)).1 with hF1
        set F2 := (flushBytes (st.bit_buffer ++ code)).2 with hF2
        set PAD := (8 - F2.length % 8) % 8 with hPAD
        set G1 := (flushBytes (F2 ++ List.replicate PAD false)).1 with hG1
        have htot2 := flushBytes_total (F2 ++ List.replicate PAD false)
          (by rw [List.length_append, List.length_replicate, hPAD]
              exact padded_mod _)
        have hbits3 : ((((st.payload ++ F1) ++ G1).drop
            ((st.payload ++ F1) ++ G1).length).flatMap natToBits8) ++
            ([] : List Bool) = encBits codes [] := by
          rw [List.drop_length]
          rfl
        obtain ⟨stF, app2, nc2, gs2, hEq, hPay, hChunks, hFlat, hFor⟩ :=
          ih { bit_buffer := []
               payload := (st.payload ++ F1) ++ G1
               chunk_start_offset := ((st.payload ++ F1) ++ G1).length
               bytes_written_chunk := 0
               tokens_in_chunk := 0
               total_tokens_seen := st.total_tokens_seen + 1
               chunk_index := st.chunk_index + 1
               chunks := st.chunks ++ [⟨st.chunk_index, st.chunk_start_offset,
                 st.bytes_written_chunk + F1.length + G1.length, PAD,
                 st.tokens_in_chunk + 1⟩] } []
            (by simp) (by simp) hbits3 (by intro s h; simp at h)
            (fun s h => hts s (List.mem_cons_of_mem _ h))
        refine ⟨stF, F1 ++ G1 ++ app2,
          ⟨st.chunk_index, st.chunk_start_offset,
            st.bytes_written_chunk + F1.length + G1.length, PAD,
            st.tokens_in_chunk + 1⟩ :: nc2,
          (r ++ [t]) :: gs2, ?_, ?_, ?_, ?_, ?_⟩
        · exact hEq
        · rw [hPay]
          simp
        · rw [hChunks]
          simp
        · rw [List.flatten_cons, hFlat]
          simp
        · refine List.Forall₂.cons ⟨le_rfl, ?_, ?_⟩ ?_
          · rw [hPay]
            simp only [List.length_append]
            omega
          · rw [hPay]
            simp only []
            have hregion : ((((st.payload ++ F1) ++ G1) ++ app2).drop
                st.chunk_start_offset).take
                (st.bytes_written_chunk + F1.length + G1.length) =
                (((st.payload ++ F1) ++ G1).drop st.chunk_start_offset).take
                (st.bytes_written_chunk + F1.length + G1.length) :=
              drop_take_region _ _ _ _
                (by simp only [List.length_append]; omega)
                (by simp only [List.length_append]; omega)
            rw [hregion]
            have htake : (((st.payload ++ F1) ++ G1).drop
                st.chunk_start_offset).take
                (st.bytes_written_chunk + F1.length + G1.length) =
                ((st.payload ++ F1) ++ G1).drop st.chunk_start_offset :=
              List.take_of_length_le
                (by simp only [List.length_drop, List.length_append]; omega)
            rw [htake]
            apply unpack_bits_padded
            rw [List.drop_append_of_le_length
              (show st.chunk_start_offset ≤ (st.payload ++ F1).length by
                simp only [List.length_append]; omega),
              List.flatMap_append, htot2.1, ← List.append_assoc, hbits1]
          · refine hFor.imp ?_
            intro ch g hcg
            refine ⟨le_trans ?_ hcg.1, hcg.2.1, hcg.2.2⟩
            show st.chunk_start_offset ≤ ((st.payload ++ F1) ++ G1).length
            simp only [List.length_append]
            omega
    · -- the chunk stays open: carry the grown region into the next token
      rw [if_neg hclose]
      obtain ⟨stF, app2, nc2, gs2, hEq, hPay, hChunks, hFlat, hFor⟩ :=
        ih { st with
              bit_buffer := (flushBytes (st.bit_buffer ++ code)).2
              payload := st.payload ++ (flushBytes (st.bit_buffer ++ code)).1
              bytes_written_chunk := st.bytes_written_chunk +
                (flushBytes (st.bit_buffer ++ code)).1.length
              tokens_in_chunk := st.tokens_in_chunk + 1
              total_tokens_seen := st.total_tokens_seen + 1 }
          (r ++ [t])
          (by show (st.payload ++
                (flushBytes (st.bit_buffer ++ code)).1).length =
                st.chunk_start_offset + (st.bytes_written_chunk +
                  (flushBytes (st.bit_buffer ++ code)).1.length)
              simp only [List.length_append]
              omega)
          hflspec.2 hbits1 hr1
          (fun s h => hts s (List.mem_cons_of_mem _ h))
      refine ⟨stF, (flushBytes (st.bit_buffer ++ code)).1 ++ app2, nc2, gs2,
        ?_, ?_, ?_, ?_, ?_⟩
      · exact hEq
      · rw [hPay]
        simp
      · rw [hChunks]
      · rw [hFlat]
        simp
      · exact hFor

/-! ## C1 (amended): the round trip on tables with two or more symbols -/

theorem mem_keys_freqBump_self : ∀ (t : List (Symbol × Nat)) (s : Symbol),
    s ∈ (freqBump t s).map Prod.fst := by
  intro t
  induction t with
  | nil => intro s; simp [freqBump]
  | cons p rest ih =>
    intro s
    rcases p with ⟨u, n⟩
    by_cases h : u = s
    · subst h
      simp [freqBump]
    · simp only [freqBump, if_neg h, List.map_cons, List.mem_cons]
      exact Or.inr (ih s)

theorem mem_keys_freqBump_mono : ∀ (t : List (Symbol × Nat)) (s x : Symbol),
    x ∈ t.map Prod.fst → x ∈ (freqBump t s).map Prod.fst := by
  intro t
  induction t with
  | nil => intro s x hx; simp at hx
  | cons p rest ih =>
    intro s x hx
    rcases p with ⟨u, n⟩
    simp only [List.map_cons, List.mem_cons] at hx
    by_cases h : u = s
    · subst h
      have he : freqBump ((u, n) :: rest) u = (u, n + 1) :: rest := by
        simp [freqBump]
      rw [he]
      simpa using hx
    · simp only [freqBump, if_neg h, List.map_cons, List.mem_cons]
      rcases hx with hx | hx
      · exact Or.inl hx
      · exact Or.inr (ih s x hx)

/-- Every streamed token ends up as a key of the frequency table. -/
theorem mem_keys_foldl_freqBump : ∀ (ts : List Symbol)
    (t : List (Symbol × Nat)) (s : Symbol),
    s ∈ ts ∨ s ∈ t.map Prod.fst →
    s ∈ (ts.foldl freqBump t).map Prod.fst := by
  intro ts
  induction ts with
  | nil =>
    intro t s h
    rcases h with h | h
    · simp at h
    · simpa using h
  | cons u rest ih =>
    intro t s h
    rw [List.foldl_cons]
    rcases h with h | h
    · rcases List.mem_cons.1 h with h | h
      · subst h
        exact ih _ s (Or.inr (mem_keys_freqBump_self t s))
      · exact ih _ s (Or.inl h)
    · exact ih _ s (Or.inr (mem_keys_freqBump_mono t u s h))

theorem forall₂_strengthen {α β : Type _} {R S : α → β → Prop}
    (Q : β → Prop) : ∀ {l1 : List α} {l2 : List β},
    List.Forall₂ R l1 l2 → (∀ b ∈ l2, Q b) →
    (∀ a b, R a b → Q b → S a b) → List.Forall₂ S l1 l2 := by
  intro l1 l2 h
  induction h with
  | nil => intro _ _; exact List.Forall₂.nil
  | cons h1 h2 ih =>
    intro hq himp
    exact List.Forall₂.cons (himp _ _ h1 (hq _ (by simp)))
      (ih (fun b hb => hq b (List.mem_cons_of_mem _ hb)) himp)

/-- **C1 (amended)**: the round-trip claim fails as stated — on a one-symbol
token stream compression succeeds but decompression returns the empty text
(`roundtrip_fails_single_symbol`).  For every input whose global frequency
table has at least two distinct symbols, however, the claim holds for both
modes and every `target_chunk_bytes` (the code's close condition makes any
`target_chunk_bytes ≤ 1` behave like 1): whenever compression returns a
container, decoding each chunk's byte range independently (stripping only its
own padding) and concatenating the decoded symbol lists reproduces the exact
original token sequence, so the decompressed text is the concatenation of the
streamed tokens. -/
theorem compress_decompress_roundtrip (text : List Char) (mode : Mode)
    (target : Nat) (c : Container)
    (h2 : 2 ≤ (build_frequency_table_streaming
      (stream_tokens_from_file text mode (1024 * 1024))).1.length)
    (hok : compress_file_streaming_hybrid text mode target = .ok c) :
    decompress_file_streaming_hybrid c.payload c.freq c.chunks =
      some (stream_tokens_from_file text mode (1024 * 1024)).flatten := by
  have hne : (build_frequency_table_streaming
      (stream_tokens_from_file text mode (1024 * 1024))).1 ≠ [] := by
    intro h
    rw [h] at h2
    simp at h2
  obtain ⟨root, hb, hperm, hint⟩ := build_huffman_tree_spec
    (build_frequency_table_streaming
      (stream_tokens_from_file text mode (1024 * 1024))).1 hne
  have hroot : root.char? = none := hint h2
  have hcodes_eq : generate_codes (build_huffman_tree
      (build_frequency_table_streaming
        (stream_tokens_from_file text mode (1024 * 1024))).1) [] =
      treePaths root := by
    rw [hb, generate_codes_internal root hroot]
  have hkeys : ∀ s ∈ stream_tokens_from_file text mode (1024 * 1024),
      s ∈ ((build_frequency_table_streaming
        (stream_tokens_from_file text mode (1024 * 1024))).1.map Prod.fst) :=
    fun s hs => mem_keys_foldl_freqBump _ [] s (Or.inl hs)
  have hts : ∀ s ∈ stream_tokens_from_file text mode (1024 * 1024),
      (lookupCode (treePaths root) s).isSome := by
    intro s hs
    rw [lookupCode_isSome_iff, treePaths_fst]
    exact hperm.mem_iff.2 (hkeys s hs)
  have hcodesne : ∀ s cd, lookupCode (treePaths root) s = some cd →
      cd ≠ [] := by
    intro s cd hc
    exact treePaths_path_ne_nil root hroot s cd (lookupCode_mem _ s cd hc)
  obtain ⟨stF, app, newChunks, groups, hEq, hPay, hChunks, hFlat, hFor⟩ :=
    encodeAll_spec (treePaths root) mode target hcodesne
      (stream_tokens_from_file text mode (1024 * 1024)) initEncState []
      rfl (by decide) rfl (by intro s h; simp at h) hts
  have hnotempty : ¬((build_frequency_table_streaming
      (stream_tokens_from_file text mode (1024 * 1024))).1.isEmpty = true) := by
    simpa [List.isEmpty_iff] using hne
  simp only [compress_file_streaming_hybrid] at hok
  rw [if_neg hnotempty, hcodes_eq, hEq] at hok
  simp only [CompressResult.ok.injEq] at hok
  subst hok
  simp only [decompress_file_streaming_hybrid]
  have hmapM : stF.chunks.mapM (fun ch =>
      decode_with_tree (build_huffman_tree
        (build_frequency_table_streaming
          (stream_tokens_from_file text mode (1024 * 1024))).1)
        (unpack_bits ((stF.payload.drop ch.offset).take ch.length)
          ch.padding)) = some groups := by
    apply mapM_of_forall₂
    rw [hChunks]
    show List.Forall₂ _ newChunks groups
    refine forall₂_strengthen
      (fun g => ∀ s ∈ g, s ∈ ((build_frequency_table_streaming
        (stream_tokens_from_file text mode (1024 * 1024))).1.map Prod.fst))
      hFor ?_ ?_
    · intro g hg s hs
      have hsmem : s ∈ groups.flatten := List.mem_flatten.2 ⟨g, hg, hs⟩
      rw [hFlat] at hsmem
      simp only [List.nil_append] at hsmem
      exact hkeys s hsmem
    · intro ch g hP hQ
      rcases hP with ⟨_, _, hunp⟩
      rw [hunp]
      have hdec := decode_encBits
        (build_frequency_table_streaming
          (stream_tokens_from_file text mode (1024 * 1024))).1 h2 g hQ
      rw [hcodes_eq] at hdec
      exact hdec
  rw [hmapM]
  show some ((groups.map List.flatten).flatten) = _
  rw [← List.flatten_flatten, hFlat]
  simp

/-- **C1 witness**: the two-character file "ab", char mode,
`target_chunk_bytes = 1`. -/
theorem compress_decompress_roundtrip_witness :
    2 ≤ (build_frequency_table_streaming
      (stream_tokens_from_file ['a', 'b'] .char (1024 * 1024))).1.length ∧
    compress_file_streaming_hybrid ['a', 'b'] .char 1 =
      .ok ⟨[128], [(['a'], 1), (['b'], 1)], 2, .char, 1, [⟨0, 0, 1, 6, 2⟩]⟩ ∧
    decompress_file_streaming_hybrid
        (⟨[128], [(['a'], 1), (['b'], 1)], 2, .char, 1,
          [⟨0, 0, 1, 6, 2⟩]⟩ : Container).payload
        (⟨[128], [(['a'], 1), (['b'], 1)], 2, .char, 1,
          [⟨0, 0, 1, 6, 2⟩]⟩ : Container).freq
        (⟨[128], [(['a'], 1), (['b'], 1)], 2, .char, 1,
          [⟨0, 0, 1, 6, 2⟩]⟩ : Container).chunks =
      some (stream_tokens_from_file ['a', 'b'] .char (1024 * 1024)).flatten :=
  ⟨by decide, by decide,
    compress_decompress_roundtrip ['a', 'b'] .char 1
      ⟨[128], [(['a'], 1), (['b'], 1)], 2, .char, 1, [⟨0, 0, 1, 6, 2⟩]⟩
      (by decide) (by decide)⟩

/-! ## C4 (amended): streaming tokenization on safe (ASCII, no `_`) texts -/

/-- A character the streaming withhold heuristic handles soundly: ASCII and
not an underscore.  (`_` is in the `[A-Za-z_]` token class but fails
`isalpha()`; non-ASCII alphabetics pass `isalpha()` but are outside the token
class — both break the heuristic.) -/
def streamSafeChar (c : Char) : Bool :=
  c.toNat < 128 && !(c.toNat = 95)

theorem pyIsAlpha_eq_isWordRunChar (c : Char) (h : streamSafeChar c = true) :
    pyIsAlpha c = isWordRunChar c := by
  simp only [streamSafeChar, Bool.and_eq_true, Bool.not_eq_true',
    decide_eq_true_eq, decide_eq_false_iff_not] at h
  rw [Bool.eq_iff_iff]
  simp only [pyIsAlpha, isWordRunChar, isAsciiLetter, Bool.or_eq_true,
    Bool.and_eq_true, Bool.not_eq_true', decide_eq_true_eq,
    decide_eq_false_iff_not]
  omega

theorem getLastD_irrel (l : List Char) (a b : Char) (h : l ≠ []) :
    l.getLastD a = l.getLastD b := by
  cases l with
  | nil => exact absurd rfl h
  | cons c cs => rw [List.getLastD_cons, List.getLastD_cons]

theorem getLastD_append_right : ∀ (l1 l2 : List Char) (x : Char), l2 ≠ [] →
    (l1 ++ l2).getLastD x = l2.getLastD x := by
  intro l1
  induction l1 with
  | nil => intro l2 x _; rfl
  | cons a l1 ih =>
    intro l2 x h
    rw [List.cons_append, List.getLastD_cons, ih l2 a h,
      getLastD_irrel l2 a x h]

theorem getLastD_mem (l : List Char) (d : Char) (h : l ≠ []) :
    l.getLastD d ∈ l := by
  cases l with
  | nil => exact absurd rfl h
  | cons c cs =>
    rw [List.getLastD_cons]
    exact List.getLastD_mem_cons cs c

/-- `takeWhile`/`dropWhile` over an append whose left part has a failing
element never look at the right part. -/
theorem takeWhile_append_left (p : Char → Bool) : ∀ (l1 l2 : List Char),
    l1.all p = false →
    (l1 ++ l2).takeWhile p = l1.takeWhile p ∧
      (l1 ++ l2).dropWhile p = l1.dropWhile p ++ l2 := by
  intro l1
  induction l1 with
  | nil => intro l2 h; simp at h
  | cons a l1 ih =>
    intro l2 h
    by_cases hpa : p a = true
    · have hl1 : l1.all p = false := by
        rw [List.all_cons, hpa] at h
        simpa using h
      refine ⟨?_, ?_⟩
      · rw [List.cons_append, List.takeWhile_cons, List.takeWhile_cons,
          if_pos hpa, if_pos hpa, (ih l2 hl1).1]
      · rw [List.cons_append, List.dropWhile_cons, List.dropWhile_cons,
          if_pos hpa, if_pos hpa, (ih l2 hl1).2]
    · refine ⟨?_, ?_⟩
      · rw [List.cons_append, List.takeWhile_cons, List.takeWhile_cons,
          if_neg hpa, if_neg hpa]
      · rw [List.cons_append, List.dropWhile_cons, List.dropWhile_cons,
          if_neg hpa, if_neg hpa, List.cons_append]

theorem dropWhile_first_false (p : Char → Bool) : ∀ (l : List Char)
    (y : Char) (t : List Char), l.dropWhile p = y :: t → p y = false := by
  intro l
  induction l with
  | nil => intro y t h; simp at h
  | cons a l ih =>
    intro y t h
    rw [List.dropWhile_cons] at h
    split_ifs at h with hpa
    · exact ih y t h
    · injection h with h1 h2
      rw [← h1]
      rcases Bool.eq_false_or_eq_true (p a) with h2 | h2
      · exact absurd h2 hpa
      · exact h2

/-- A non-empty all-word-run string is a single token. -/
theorem findallTokens_run (c : Char) (cs : List Char)
    (hc : isWordRunChar c = true)
    (hcs : ∀ x ∈ cs, isWordRunChar x = true) :
    findallTokens (c :: cs) = [c :: cs] := by
  rw [findallTokens_cons, if_pos hc, List.takeWhile_eq_self_iff.2 hcs,
    List.dropWhile_eq_nil_iff.2 hcs]
  rfl

/-- `findall` splits at any boundary whose left side does not end in a
word-run character: no token can span it. -/
theorem findallTokens_append_boundary : ∀ (k : Nat) (l1 l2 : List Char),
    l1.length ≤ k → isWordRunChar (l1.getLastD ' ') = false →
    findallTokens (l1 ++ l2) = findallTokens l1 ++ findallTokens l2 := by
  intro k
  induction k with
  | zero =>
    intro l1 l2 h1 _
    have h0 : l1 = [] := List.length_eq_zero.1 (Nat.le_zero.1 h1)
    subst h0
    rfl
  | succ k ih =>
    intro l1 l2 hlen hlast
    cases l1 with
    | nil => rfl
    | cons c cs =>
      have hlast' : isWordRunChar (cs.getLastD c) = false := by
        rwa [List.getLastD_cons] at hlast
      have hlen' : cs.length ≤ k := by
        simp only [List.length_cons] at hlen
        omega
      rw [List.cons_append, findallTokens_cons, findallTokens_cons]
      by_cases hW : isWordRunChar c = true
      · rw [if_pos hW, if_pos hW]
        have hallf : cs.all isWordRunChar = false := by
          rcases Bool.eq_false_or_eq_true (cs.all isWordRunChar) with h1 | h1
          · exfalso
            have hmem := List.getLastD_mem_cons cs c
            rcases List.mem_cons.1 hmem with h2 | h2
            · rw [h2] at hlast'
              rw [hlast'] at hW
              exact Bool.false_ne_true hW
            · have h3 := List.all_eq_true.1 h1 _ h2
              rw [hlast'] at h3
              exact Bool.false_ne_true h3
          · exact h1
        obtain ⟨htw, hdw⟩ := takeWhile_append_left isWordRunChar cs l2 hallf
        rw [htw, hdw]
        have hdne : cs.dropWhile isWordRunChar ≠ [] := by
          intro h0
          rw [List.dropWhile_eq_nil_iff] at h0
          simp [List.all_eq_true.2 h0] at hallf
        have hcsne : cs ≠ [] := by
          intro h0
          rw [h0] at hdne
          exact hdne rfl
        have hlastd : isWordRunChar
            ((cs.dropWhile isWordRunChar).getLastD ' ') = false := by
          obtain ⟨t, ht⟩ := List.dropWhile_suffix
            (l := cs) isWordRunChar
          have he : cs.getLastD ' ' =
              (cs.dropWhile isWordRunChar).getLastD ' ' := by
            nth_rewrite 1 [← ht]
            exact getLastD_append_right _ _ _ hdne
          rw [← he, getLastD_irrel cs ' ' c hcsne]
          exact hlast'
        rw [ih (cs.dropWhile isWordRunChar) l2
          (le_trans (List.dropWhile_suffix isWordRunChar).length_le hlen')
          hlastd, List.cons_append]
      · rw [if_neg hW, if_neg hW]
        have hcs_last : isWordRunChar (cs.getLastD ' ') = false := by
          cases cs with
          | nil => decide
          | cons d ds =>
            rw [getLastD_irrel (d :: ds) ' ' c (by simp)]
            exact hlast'
        have hih := ih cs l2 hlen' hcs_last
        split_ifs <;> rw [hih] <;> simp

/-- The maximal trailing word-run decomposition of a buffer ending in a
word-run character. -/
theorem trailing_run_decomp (buf : List Char) (hne : buf ≠ [])
    (hW : isWordRunChar (buf.getLastD ' ') = true) :
    ∃ pre run, buf = pre ++ run ∧ run ≠ [] ∧
      (∀ x ∈ run, isWordRunChar x = true) ∧
      isWordRunChar (pre.getLastD ' ') = false := by
  refine ⟨(buf.reverse.dropWhile isWordRunChar).reverse,
    (buf.reverse.takeWhile isWordRunChar).reverse, ?_, ?_, ?_, ?_⟩
  · rw [← List.reverse_append, List.takeWhile_append_dropWhile,
      List.reverse_reverse]
  · cases hrev : buf.reverse with
    | nil => exact absurd (List.reverse_eq_nil_iff.1 hrev) hne
    | cons x t =>
      have hx : x = buf.getLastD ' ' := by
        rw [List.getLastD_eq_getLast? _ _, ← List.head?_reverse, hrev]
        rfl
      rw [List.takeWhile_cons, if_pos (by rw [hx]; exact hW)]
      simp
  · intro x hx
    rw [List.mem_reverse] at hx
    exact List.mem_takeWhile_imp hx
  · by_cases hd : buf.reverse.dropWhile isWordRunChar = []
    · rw [hd]
      decide
    · obtain ⟨y, t, hyt⟩ := List.exists_cons_of_ne_nil hd
      rw [hyt]
      have he : (y :: t).reverse.getLastD ' ' = y := by
        rw [List.getLastD_eq_getLast? _ _, List.getLast?_reverse]
        rfl
      rw [he]
      exact dropWhile_first_false isWordRunChar buf.reverse y t hyt

/-- With a positive chunk size the read loop covers the whole text. -/
theorem readChunks_flatten : ∀ (k : Nat) (text : List Char) (n : Nat),
    text.length ≤ k → 1 ≤ n → (readChunks n text).flatten = text := by
  intro k
  induction k with
  | zero =>
    intro text n h1 _
    have h0 : text = [] := List.length_eq_zero.1 (Nat.le_zero.1 h1)
    subst h0
    rfl
  | succ k ih =>
    intro text n h1 hn
    cases text with
    | nil => rfl
    | cons c cs =>
      simp only [List.length_cons] at h1
      rw [readChunks_cons, if_neg (by omega), List.flatten_cons,
        ih ((c :: cs).drop n) n
          (by simp only [List.length_drop, List.length_cons]; omega) hn,
        List.take_append_drop]

/-- The buffered word loop tokenizes the concatenation of its carry and the
remaining chunks, provided every character is stream-safe. -/
theorem streamWordLoop_spec : ∀ (chunks : List (List Char))
    (carry : List Char),
    (∀ c ∈ carry ++ chunks.flatten, streamSafeChar c = true) →
    streamWordLoop carry chunks = findallTokens (carry ++ chunks.flatten) := by
  intro chunks
  induction chunks with
  | nil =>
    intro carry _
    simp only [streamWordLoop, List.flatten_nil, List.append_nil]
  | cons ch rest ih =>
    intro carry hok
    have hokbuf : ∀ c ∈ carry ++ ch, streamSafeChar c = true := by
      intro x hx
      apply hok
      rcases List.mem_append.1 hx with h | h
      · exact List.mem_append.2 (Or.inl h)
      · refine List.mem_append.2 (Or.inr ?_)
        rw [List.flatten_cons]
        exact List.mem_append.2 (Or.inl h)
    have hokrest : ∀ c ∈ rest.flatten, streamSafeChar c = true := by
      intro x hx
      apply hok
      refine List.mem_append.2 (Or.inr ?_)
      rw [List.flatten_cons]
      exact List.mem_append.2 (Or.inr hx)
    simp only [streamWordLoop]
    rw [List.flatten_cons, ← List.append_assoc]
    by_cases hcond : (!(carry ++ ch).isEmpty &&
        pyIsAlpha ((carry ++ ch).getLastD ' ')) = true
    · rw [if_pos hcond]
      rw [Bool.and_eq_true] at hcond
      obtain ⟨hne, halpha⟩ := hcond
      have hbufne : carry ++ ch ≠ [] := by
        intro h0
        rw [h0] at hne
        simp at hne
      have hsafe_last : streamSafeChar ((carry ++ ch).getLastD ' ') = true :=
        hokbuf _ (getLastD_mem _ ' ' hbufne)
      have hWlast : isWordRunChar ((carry ++ ch).getLastD ' ') = true := by
        rw [← pyIsAlpha_eq_isWordRunChar _ hsafe_last]
        exact halpha
      obtain ⟨pre, run, hsplit, hrne, hrall, hpre⟩ :=
        trailing_run_decomp (carry ++ ch) hbufne hWlast
      obtain ⟨c0, cs0, hc0⟩ := List.exists_cons_of_ne_nil hrne
      have hfr : findallTokens run = [run] := by
        rw [hc0]
        exact findallTokens_run c0 cs0
          (hrall c0 (by rw [hc0]; exact List.mem_cons_self c0 cs0))
          (fun x hx => hrall x (by rw [hc0]; exact List.mem_cons_of_mem _ hx))
      have hbufsplit : findallTokens (carry ++ ch) =
          findallTokens pre ++ [run] := by
        rw [hsplit,
          findallTokens_append_boundary pre.length pre run le_rfl hpre, hfr]
      have hgl : (findallTokens (carry ++ ch)).getLast? = some run := by
        rw [hbufsplit]
        exact List.getLast?_concat _
      rw [hgl]
      show (findallTokens (carry ++ ch)).dropLast ++ streamWordLoop run rest =
        findallTokens ((carry ++ ch) ++ rest.flatten)
      have hok2 : ∀ x ∈ run ++ rest.flatten, streamSafeChar x = true := by
        intro x hx
        rcases List.mem_append.1 hx with h | h
        · refine hokbuf x ?_
          rw [hsplit]
          exact List.mem_append.2 (Or.inr h)
        · exact hokrest x h
      rw [hbufsplit, List.dropLast_concat, ih run hok2, hsplit,
        List.append_assoc,
        findallTokens_append_boundary pre.length pre (run ++ rest.flatten)
          le_rfl hpre]
    · rw [if_neg hcond]
      have hWlast : isWordRunChar ((carry ++ ch).getLastD ' ') = false := by
        by_cases hbe : carry ++ ch = []
        · rw [hbe]
          decide
        · have hsafe := hokbuf _ (getLastD_mem _ ' ' hbe)
          have halpha : pyIsAlpha ((carry ++ ch).getLastD ' ') = false := by
            rcases Bool.eq_false_or_eq_true
              (pyIsAlpha ((carry ++ ch).getLastD ' ')) with h1 | h1
            · exfalso
              apply hcond
              rw [Bool.and_eq_true]
              refine ⟨?_, h1⟩
              have h0 : (carry ++ ch).isEmpty = false := by
                rcases Bool.eq_false_or_eq_true ((carry ++ ch).isEmpty)
                  with h2 | h2
                · exact absurd (by simpa [List.isEmpty_iff] using h2) hbe
                · exact h2
              rw [h0]
              rfl
            · exact h1
          rw [← pyIsAlpha_eq_isWordRunChar _ hsafe]
          exact halpha
      rw [ih [] (by
        intro x hx
        rw [List.nil_append] at hx
        exact hokrest x hx), List.nil_append,
        findallTokens_append_boundary (carry ++ ch).length (carry ++ ch)
          rest.flatten le_rfl hWlast]

/-- **C4 (amended)**: the buffer-size-independence claim fails as stated —
`stream_tokens_split_underscore_run` shows the text `"a_b"` with buffer size 1
streaming to `["a_", "b"]` while whole-text tokenization gives `["a_b"]`
(the withhold test uses `isalpha()`, which rejects `_` although `_` is in the
`[A-Za-z_]` token class; non-ASCII alphabetic characters break it in the
opposite direction).  For texts of ASCII characters other than `_`, however,
the streaming tokenizer agrees with `tokenize_text` for **every** buffer size
`n ≥ 1`. -/
theorem stream_tokens_eq_tokenize_text (text : List Char) (n : Nat)
    (hn : 1 ≤ n) (hsafe : ∀ c ∈ text, c.toNat < 128 ∧ c.toNat ≠ 95) :
    stream_tokens_from_file text .word n = tokenize_text text .word := by
  have hflat : (readChunks n text).flatten = text :=
    readChunks_flatten text.length text n le_rfl hn
  show streamWordLoop [] (readChunks n text) = findallTokens text
  rw [streamWordLoop_spec (readChunks n text) []
    (by
      intro c hc
      rw [List.nil_append, hflat] at hc
      have h := hsafe c hc
      simp only [streamSafeChar, Bool.and_eq_true, Bool.not_eq_true',
        decide_eq_true_eq, decide_eq_false_iff_not]
      exact h), List.nil_append, hflat]

/-- **C4 witness**: the text `"hi "`, buffer size 1. -/
theorem stream_tokens_eq_tokenize_text_witness :
    1 ≤ 1 ∧ (∀ c ∈ ['h', 'i', ' '], c.toNat < 128 ∧ c.toNat ≠ 95) ∧
    stream_tokens_from_file ['h', 'i', ' '] .word 1 =
      tokenize_text ['h', 'i', ' '] .word :=
  ⟨by decide, by decide,
    stream_tokens_eq_tokenize_text ['h', 'i', ' '] 1 (by decide) (by decide)⟩

/-! ## C7 (amended): what `show_page` actually returns -/

/-- The cache-free value of `decode_chunk i`: decode the chunk's byte range
and whitespace-split the decoded text into words. -/
def pureWords (data : List Nat) (root : Option Node)
    (chunks : List ChunkMeta) (i : Nat) : Option (List Symbol) :=
  match chunks.get? i with
  | none => none
  | some ch =>
    match decode_with_tree root
        (unpack_bits ((data.drop ch.offset).take ch.length) ch.padding) with
    | none => none
    | some toks => some (pySplit toks.flatten)

/-- A cache is correct when every entry equals the cache-free decode. -/
def cacheOK (data : List Nat) (root : Option Node)
    (chunks : List ChunkMeta) (cache : Cache) : Prop :=
  ∀ i ws, cache.lookup i = some ws →
    pureWords data root chunks i = some ws

theorem cacheLookup_append : ∀ (l1 l2 : Cache) (j : Nat),
    (l1 ++ l2).lookup j =
      match l1.lookup j with
      | some v => some v
      | none => l2.lookup j := by
  intro l1
  induction l1 with
  | nil => intro l2 j; rfl
  | cons p t ih =>
    intro l2 j
    rcases p with ⟨k, v⟩
    rw [List.cons_append]
    cases hk : (j == k) with
    | false => simp only [List.lookup, hk, ih l2 j]
    | true => simp only [List.lookup, hk]

theorem decode_chunk_spec (data : List Nat) (root : Option Node)
    (chunks : List ChunkMeta) (cache : Cache) (i : Nat) (ws : List Symbol)
    (hc : cacheOK data root chunks cache)
    (hp : pureWords data root chunks i = some ws) :
    ∃ cache2, decode_chunk data root chunks cache i = some (ws, cache2) ∧
      cacheOK data root chunks cache2 := by
  rcases hl : cache.lookup i with _ | ws0
  · refine ⟨cache ++ [(i, ws)], ?_, ?_⟩
    · simp only [decode_chunk, hl]
      unfold pureWords at hp
      split at hp
      · exact absurd hp (by simp)
      · rename_i ch hg
        split at hp
        · exact absurd hp (by simp)
        · rename_i toks hd
          injection hp with hp2
          simp only [hg, hd, hp2]
    · intro j ws2 hj
      rw [cacheLookup_append] at hj
      rcases hl2 : cache.lookup j with _ | v
      · rw [hl2] at hj
        simp only [List.lookup] at hj
        cases hk : (j == i) with
        | false =>
          rw [hk] at hj
          simp at hj
        | true =>
          rw [hk] at hj
          injection hj with hww
          have hij : j = i := beq_iff_eq.1 hk
          rw [hij, hp, hww]
      · rw [hl2] at hj
        injection hj with hww
        rw [← hww]
        exact hc j v hl2
  · have hpv := hc i ws0 hl
    rw [hp] at hpv
    injection hpv with hww
    refine ⟨cache, ?_, hc⟩
    simp only [decode_chunk, hl, hww]

theorem decodeChunks_spec (data : List Nat) (root : Option Node)
    (chunks : List ChunkMeta) : ∀ (idxs : List Nat) (cache : Cache),
    cacheOK data root chunks cache →
    (∀ i ∈ idxs, pureWords data root chunks i ≠ none) →
    ∃ cache2, decodeChunks data root chunks cache idxs =
        some (idxs.flatMap
          (fun i => (pureWords data root chunks i).getD []), cache2) ∧
      cacheOK data root chunks cache2 := by
  intro idxs
  induction idxs with
  | nil =>
    intro cache hc _
    exact ⟨cache, rfl, hc⟩
  | cons i idxs ih =>
    intro cache hc hall
    have hi := hall i (by simp)
    rcases hp : pureWords data root chunks i with _ | ws
    · exact absurd hp hi
    obtain ⟨cache2, hdc, hc2⟩ :=
      decode_chunk_spec data root chunks cache i ws hc hp
    obtain ⟨cache3, hrec, hc3⟩ :=
      ih cache2 hc2 (fun j hj => hall j (List.mem_cons_of_mem _ hj))
    refine ⟨cache3, ?_, hc3⟩
    simp only [decodeChunks, hdc, hrec, List.flatMap_cons, hp,
      Option.getD_some]

/-- **C7 (amended)**: the page content is **not** the corresponding slice of
the full decoded symbol sequence — `decode_chunk` whitespace-splits the
decoded text, so whitespace symbols disappear and multi-symbol words merge
(`show_page_words_ne_symbol_slice`).  What `show_page` does do, for any
correct cache: it clamps the page index, finds the chunks whose token ranges
(prefix sums of the per-chunk `tokens` counts) overlap the page's
`[start, end)`, decodes exactly those chunks through the cache (which stays
correct), concatenates their whitespace-split word lists in chunk order, and
slices with the token-count offsets rebased by the first needed chunk's
range start. -/
theorem show_page_spec (data : List Nat) (root : Option Node)
    (chunks : List ChunkMeta) (cache : Cache) (current_page : Int)
    (hpc : page_count chunks ≠ 0)
    (hc : cacheOK data root chunks cache)
    (hne : (find_chunks_for_page chunks
      ((max 0 (min current_page (page_count chunks - 1 : Int))).toNat)).1 ≠ [])
    (hall : ∀ i ∈ (find_chunks_for_page chunks
        ((max 0 (min current_page (page_count chunks - 1 : Int))).toNat)).1,
      pureWords data root chunks i ≠ none) :
    ∃ cache2,
      show_page data root chunks cache current_page =
        .page
          (pySlice
            ((find_chunks_for_page chunks
                ((max 0 (min current_page
                  (page_count chunks - 1 : Int))).toNat)).1.flatMap
              (fun i => (pureWords data root chunks i).getD []))
            (((find_chunks_for_page chunks
                ((max 0 (min current_page
                  (page_count chunks - 1 : Int))).toNat)).2.1 : Int) -
              ((chunk_word_ranges chunks).getD
                ((find_chunks_for_page chunks
                  ((max 0 (min current_page
                    (page_count chunks - 1 : Int))).toNat)).1.headD 0)
                (0, 0)).1)
            (((find_chunks_for_page chunks
                ((max 0 (min current_page
                  (page_count chunks - 1 : Int))).toNat)).2.2 : Int) -
              ((chunk_word_ranges chunks).getD
                ((find_chunks_for_page chunks
                  ((max 0 (min current_page
                    (page_count chunks - 1 : Int))).toNat)).1.headD 0)
                (0, 0)).1))
          cache2 ∧
      cacheOK data root chunks cache2 := by
  obtain ⟨cache2, hdec, hc2⟩ := decodeChunks_spec data root chunks
    (find_chunks_for_page chunks
      ((max 0 (min current_page (page_count chunks - 1 : Int))).toNat)).1
    cache hc hall
  refine ⟨cache2, ?_, hc2⟩
  simp only [show_page]
  rw [if_neg hpc, hdec]
  obtain ⟨i0, t0, hi0⟩ := List.exists_cons_of_ne_nil hne
  rw [hi0]
  rfl

/-- **C7 witness**: the word-mode container of "hi there" (payload byte 112,
one chunk, three symbols `hi`, `" "`, `there`), empty cache, page 0. -/
theorem show_page_spec_witness :
    page_count [(⟨0, 0, 1, 3, 3⟩ : ChunkMeta)] ≠ 0 ∧
    (find_chunks_for_page [(⟨0, 0, 1, 3, 3⟩ : ChunkMeta)]
      ((max 0 (min 0 (page_count [(⟨0, 0, 1, 3, 3⟩ : ChunkMeta)] - 1 :
        Int))).toNat)).1 ≠ [] ∧
    ∃ cache2,
      show_page [112]
          (build_huffman_tree
            [(['h', 'i'], 1), ([' '], 1), (['t', 'h', 'e', 'r', 'e'], 1)])
          [⟨0, 0, 1, 3, 3⟩] [] 0 =
        .page
          (pySlice
            ((find_chunks_for_page [(⟨0, 0, 1, 3, 3⟩ : ChunkMeta)]
                ((max 0 (min 0 (page_count [(⟨0, 0, 1, 3, 3⟩ : ChunkMeta)] - 1 :
                  Int))).toNat)).1.flatMap
              (fun i => (pureWords [112]
                (build_huffman_tree
                  [(['h', 'i'], 1), ([' '], 1), (['t', 'h', 'e', 'r', 'e'], 1)])
                [⟨0, 0, 1, 3, 3⟩] i).getD []))
            (((find_chunks_for_page [(⟨0, 0, 1, 3, 3⟩ : ChunkMeta)]
                ((max 0 (min 0 (page_count [(⟨0, 0, 1, 3, 3⟩ : ChunkMeta)] - 1 :
                  Int))).toNat)).2.1 : Int) -
              ((chunk_word_ranges [(⟨0, 0, 1, 3, 3⟩ : ChunkMeta)]).getD
                ((find_chunks_for_page [(⟨0, 0, 1, 3, 3⟩ : ChunkMeta)]
                  ((max 0 (min 0 (page_count [(⟨0, 0, 1, 3, 3⟩ : ChunkMeta)] - 1 :
                    Int))).toNat)).1.headD 0)
                (0, 0)).1)
            (((find_chunks_for_page [(⟨0, 0, 1, 3, 3⟩ : ChunkMeta)]
                ((max 0 (min 0 (page_count [(⟨0, 0, 1, 3, 3⟩ : ChunkMeta)] - 1 :
                  Int))).toNat)).2.2 : Int) -
              ((chunk_word_ranges [(⟨0, 0, 1, 3, 3⟩ : ChunkMeta)]).getD
                ((find_chunks_for_page [(⟨0, 0, 1, 3, 3⟩ : ChunkMeta)]
                  ((max 0 (min 0 (page_count [(⟨0, 0, 1, 3, 3⟩ : ChunkMeta)] - 1 :
                    Int))).toNat)).1.headD 0)
                (0, 0)).1))
          cache2 ∧
      cacheOK [112]
        (build_huffman_tree
          [(['h', 'i'], 1), ([' '], 1), (['t', 'h', 'e', 'r', 'e'], 1)])
        [⟨0, 0, 1, 3, 3⟩] cache2 :=
  ⟨by decide, by decide,
    show_page_spec [112]
      (build_huffman_tree
        [(['h', 'i'], 1), ([' '], 1), (['t', 'h', 'e', 'r', 'e'], 1)])
      [⟨0, 0, 1, 3, 3⟩] [] 0 (by decide)
      (by intro i ws h; simp [List.lookup] at h)
      (by decide) (by decide)⟩

/-! ## Concrete counterexamples for C1, C2, C3, C4, C7 -/

/-- **C1 counterexample**: the file "a" (one token, one distinct symbol), char
mode, `target_chunk_bytes = 1`.  Compression succeeds (payload byte 0, one
chunk `{offset 0, length 1, padding 7, tokens 1}`), but decompression returns
the empty text instead of "a": the one-leaf tree's root has no children, so
`decode_with_tree` steps to `None` and emits nothing.  The round-trip claim
fails as stated. -/
theorem roundtrip_fails_single_symbol :
    compress_file_streaming_hybrid ['a'] .char 1 =
      .ok ⟨[0], [(['a'], 1)], 1, .char, 1, [⟨0, 0, 1, 7, 1⟩]⟩ ∧
    decompress_file_streaming_hybrid [0] [(['a'], 1)] [⟨0, 0, 1, 7, 1⟩] =
      some [] ∧
    ([] : List Char) ≠ ['a'] := by decide

/-- **C2 counterexample**: the tables `{a:1, b:1}` and `{b:1, a:1}` are equal
as symbol-to-count maps (they are permutations of each other, with no
duplicate keys), yet `build_huffman_tree` + `generate_codes` give different
trees and different CodeTables (`a` gets "1" from the first order and "0"
from the second): heap tie-breaking follows the iteration order, not a
canonical order on symbols. -/
theorem codes_depend_on_table_order :
    ([(['a'], 1), (['b'], 1)] : List (Symbol × Nat)).Perm
        [(['b'], 1), (['a'], 1)] ∧
    generate_codes (build_huffman_tree [(['a'], 1), (['b'], 1)]) [] ≠
      generate_codes (build_huffman_tree [(['b'], 1), (['a'], 1)]) [] ∧
    build_huffman_tree [(['a'], 1), (['b'], 1)] ≠
      build_huffman_tree [(['b'], 1), (['a'], 1)] := by decide

/-- **C3 counterexample**: with the tree of `{a:1, b:1, c:2}` (codes `c ↦ 0`,
`b ↦ 10`, `a ↦ 11`), decoding the one-bit chunk "1" — a chunk whose declared
`token_count` would be 1 — emits **zero** symbols, leaves the unresolved bit
silently dropped, and returns normally (`some []`): no `DecodeAlignmentError`
exists anywhere in the source, and no error of any kind is raised. -/
theorem decode_mismatch_returns_silently :
    decode_with_tree (build_huffman_tree [(['a'], 1), (['b'], 1), (['c'], 2)])
        [true] = some [] := by decide

/-- **C4 counterexample**: the text "a_b" with read-buffer size 1.  The
buffer "a_" ends in `_`, which is in the letter/underscore token class but is
not `isalpha()`, so the run "a_" is emitted prematurely and the stream yields
`["a_", "b"]` whereas whole-text tokenization yields `["a_b"]`. -/
theorem stream_tokens_split_underscore_run :
    stream_tokens_from_file ['a', '_', 'b'] .word 1 = [['a', '_'], ['b']] ∧
    tokenize_text ['a', '_', 'b'] .word = [['a', '_', 'b']] ∧
    ([['a', '_'], ['b']] : List Symbol) ≠ [['a', '_', 'b']] := by decide

/-- **C7 counterexample**: the word-mode container of "hi there" (payload byte
112, one chunk `{offset 0, length 1, padding 3, tokens 3}`, tree of
`{hi:1, " ":1, there:1}`).  Page 0 covers symbol offsets `[0, 3)`; the full
decoded symbol sequence is `[hi, " ", there]`, so the claimed slice is those
three symbols — but `show_page` returns the whitespace-split words
`[hi, there]` (and caches them): the page content is not the symbol-sequence
slice. -/
theorem show_page_words_ne_symbol_slice :
    show_page [112]
        (build_huffman_tree
          [(['h', 'i'], 1), ([' '], 1), (['t', 'h', 'e', 'r', 'e'], 1)])
        [⟨0, 0, 1, 3, 3⟩] [] 0 =
      .page [['h', 'i'], ['t', 'h', 'e', 'r', 'e']]
        [(0, [['h', 'i'], ['t', 'h', 'e', 'r', 'e']])] ∧
    decode_with_tree
        (build_huffman_tree
          [(['h', 'i'], 1), ([' '], 1), (['t', 'h', 'e', 'r', 'e'], 1)])
        (unpack_bits [112] 3) =
      some [['h', 'i'], [' '], ['t', 'h', 'e', 'r', 'e']] ∧
    ([['h', 'i'], ['t', 'h', 'e', 'r', 'e']] : List Symbol) ≠
      [['h', 'i'], [' '], ['t', 'h', 'e', 'r', 'e']] := by decide

end HuffmanTool
